import Mathlib

/-!
Shallow embedding of `src/timesfm/patched_decoder.py` (the patched
time-series decoder core) over exact rationals.

Conventions of the embedding:
* JAX arrays become nested lists of `ℚ`; an array of shape `B × N × P`
  is a `List (List (List ℚ))`.
* Vectorized elementwise operations (`jnp.where`, broadcasting of the
  per-example statistics, etc.) become `List.map` / `List.zipWith`.
* `jnp.sqrt` has no exact computable counterpart on `ℚ`, so every
  definition that needs it takes a function `sqrt : ℚ → ℚ` as a
  parameter; theorems constrain it exactly where it is used
  (nonnegativity on nonnegative arguments, or `sqrt v ^ 2 = v` at the
  concrete variance in question), which characterizes the real square
  root at those points.
* The external collaborators (residual feed-forward blocks, the
  stacked transformer, embedding tables) are out of scope of the spec
  and appear as function parameters.
-/

/-- Pad sentinel `PAD_VAL = 1123581321.0` from the source. -/
def PAD_VAL : ℚ := 1123581321

/-- Numerical tolerance `_TOLERANCE = 1e-7` from the source. -/
def _TOLERANCE : ℚ := 1 / 10000000

/-! ### Generic list helpers (array indexing / reshaping) -/

/-- Take `n` patches of length `p` from the front of `l`
(helper for `chunk`). -/
def chunkAux (p : Nat) : Nat → List ℚ → List (List ℚ)
  | 0, _ => []
  | n + 1, l => l.take p :: chunkAux p n (l.drop p)

/-- `einshape "b(np)->bnp"` applied to one batch row: split a row of
length `T` into `T / p` contiguous patches of length `p`. -/
def chunk (p : Nat) (l : List ℚ) : List (List ℚ) :=
  chunkAux p (l.length / p) l

/-- Python `arr[-n:]`: the last `n` entries (all of them if `n` exceeds
the length). -/
def takeLast (n : Nat) (l : List α) : List α := l.drop (l.length - n)

/-- `m.shape[1]` for a rectangular 2-D array modelled as a list of
rows. -/
def shape1 (m : List (List α)) : Nat := (m.headD []).length

/-! ### `_masked_mean_std` (source lines 161-206) -/

/-- `jnp.argmax` of a boolean vector: index of the first `true`, or `0`
when every entry is `false` (all entries are then equal maxima and
`argmax` returns the first). -/
def jnpArgmaxBool (l : List Bool) : Nat :=
  if l.any id then l.findIdx id else 0

/-- `_get_patch_index` (source lines 177-180) applied to one row of
`pad_sum`: first index with value `>= 3`, falling back to the last
index when no entry qualifies. -/
def _get_patch_index (arr : List ℚ) : Nat :=
  let indices := jnpArgmaxBool (arr.map (fun x => decide (3 ≤ x)))
  let row_sum := (arr.map (fun x => decide (3 ≤ x))).count true
  if row_sum = 0 then arr.length - 1 else indices

/-- `pad_sum = jnp.sum(1 - padding, axis=2)` for one batch row. -/
def padSumRow (padding : List (List ℚ)) : List ℚ :=
  padding.map (fun pat => (pat.map (fun x => 1 - x)).sum)

/-- `num_valid_elements` with its zero-divisor replacement
(source lines 192-194): the masked count, or `1` when it is `0`. -/
def numValidEff (pad : List ℚ) : ℚ :=
  let s := (pad.map (fun x => 1 - x)).sum
  if s = 0 then 1 else s

/-- `masked_mean` of one selected patch (source lines 197-201). -/
def maskedMeanRow (arr pad : List ℚ) : ℚ :=
  (List.zipWith (· * ·) arr (pad.map (fun x => 1 - x))).sum / numValidEff pad

/-- `masked_var` of one selected patch, clamped at `0`
(source lines 198-203). -/
def maskedVarRow (arr pad : List ℚ) : ℚ :=
  let v := ((List.zipWith (· * ·) arr (pad.map (fun x => 1 - x))).map
      (fun x => x ^ 2)).sum / numValidEff pad - maskedMeanRow arr pad ^ 2
  if v < 0 then 0 else v

/-- `_masked_mean_std` restricted to one batch row: select the patch
with `_get_patch_index` and return the masked mean and masked standard
deviation of that patch. -/
def _masked_mean_std_row (sqrt : ℚ → ℚ) (inputs padding : List (List ℚ)) :
    ℚ × ℚ :=
  let idx := _get_patch_index (padSumRow padding)
  (maskedMeanRow (inputs.getD idx []) (padding.getD idx []),
   sqrt (maskedVarRow (inputs.getD idx []) (padding.getD idx [])))

/-- `_masked_mean_std` (source lines 161-206): per-example (mean, std)
over a `B × N × P` batch. -/
def _masked_mean_std (sqrt : ℚ → ℚ) (inputs padding : List (List (List ℚ))) :
    List ℚ × List ℚ :=
  (List.zipWith (_masked_mean_std_row sqrt) inputs padding).unzip

/-! ### `_forward_transform` / `_reverse_transform`
(source lines 298-314) -/

/-- The std floor `jnp.where(sigma < _TOLERANCE, 1.0, sigma)`
(source line 303). -/
def floorStd (s : ℚ) : ℚ := if s < _TOLERANCE then 1 else s

/-- `PatchedTimeSeriesDecoder._forward_transform` (source lines
298-307): normalize each patch by the per-example statistics, flooring
the std, and force positions within tolerance of `PAD_VAL` back to
`PAD_VAL`. Returns the outputs together with the (mean, floored std)
statistics, exactly as the source does. -/
def _forward_transform (sqrt : ℚ → ℚ)
    (inputs patched_pads : List (List (List ℚ))) :
    List (List (List ℚ)) × (List ℚ × List ℚ) :=
  let ms := _masked_mean_std sqrt inputs patched_pads
  let mu := ms.1
  let sigma := ms.2.map floorStd
  let outputs := List.zipWith
    (fun row (st : ℚ × ℚ) =>
      row.map (fun pat =>
        pat.map (fun x =>
          if |x - PAD_VAL| < _TOLERANCE then PAD_VAL
          else (x - st.1) / st.2)))
    inputs (mu.zip sigma)
  (outputs, (mu, sigma))

/-- `PatchedTimeSeriesDecoder._reverse_transform` (source lines
309-314): `outputs * sigma + mu` broadcast over a `B × N × P × Q`
grid. -/
def _reverse_transform (outputs : List (List (List (List ℚ))))
    (stats : List ℚ × List ℚ) : List (List (List (List ℚ))) :=
  List.zipWith
    (fun grid (st : ℚ × ℚ) =>
      grid.map (fun pat => pat.map (fun chan =>
        chan.map (fun y => y * st.2 + st.1))))
    outputs (stats.1.zip stats.2)

/-- Lift a `B × N × P` array to a `B × N × P × 1` array (a singleton
trailing channel axis), so that the 4-D `_reverse_transform` can be
composed with the 3-D output of `_forward_transform`. -/
def toQ1 (x : List (List (List ℚ))) : List (List (List (List ℚ))) :=
  x.map (fun row => row.map (fun pat => pat.map (fun v => [v])))

/-! ### `_shift_padded_seq` (source lines 65-85) -/

/-- `jnp.argmin` of a vector: the index of the first entry attaining
the minimum (`0` on an empty vector). The first minimum is the first
entry that is `≤` every entry of the vector. -/
def jnpArgmin (l : List ℚ) : Nat :=
  l.findIdx (fun x => decide (∀ y ∈ l, x ≤ y))

/-- One row of the `shift_row` body (source lines 75-79):
`shifted_row[i] = seq_row[(i - shift) % num]`, with Python's
nonnegative remainder. -/
def shiftRow (num : Nat) (seqRow : List (List ℚ)) (shift : Nat) :
    List (List ℚ) :=
  (List.range num).map
    (fun (i : Nat) =>
      seqRow.getD ((((i : ℕ) : ℤ) - (shift : ℤ)) % (num : ℤ)).toNat [])

/-- `_shift_padded_seq` (source lines 65-85): shift each row of `seq`
by the index of the first `0` in the corresponding row of `mask`
(computed with `jnp.argmin`). -/
def _shift_padded_seq (mask : List (List ℚ)) (seq : List (List (List ℚ))) :
    List (List (List ℚ)) :=
  let num := (seq.headD []).length
  List.zipWith (fun seqRow maskRow => shiftRow num seqRow (jnpArgmin maskRow))
    seq mask

/-! ### `_preprocess_input` (source lines 316-347) -/

/-- Source lines 325-327: force the padding to `1` wherever the raw
input is within tolerance of `PAD_VAL`, for one batch row. -/
def forcePadding (input_ts input_padding : List ℚ) : List ℚ :=
  List.zipWith (fun x p => if |x - PAD_VAL| < _TOLERANCE then 1 else p)
    input_ts input_padding

/-- `jnp.min` over the last axis of one patch (source line 335);
`0` on an empty patch (jnp errors there, and no claim concerns it). -/
def listMin : List ℚ → ℚ
  | [] => 0
  | x :: xs => xs.foldl min x

/-- The patch-level padding of one batch row, as the preprocessor
computes it: sentinel forcing, patching into patches of length `P`,
then `jnp.min` within each patch (source lines 325-335). -/
def patchedPaddingOf (P : Nat) (input_ts input_padding : List ℚ) : List ℚ :=
  (chunk P (forcePadding input_ts input_padding)).map listMin

/-- Elementwise `B × N × D` addition with broadcasting of the leading
axis when the right operand has a single row (jnp broadcasting for
`model_input += position_emb` with a `1 × N × D` embedding). -/
def addBC (a b : List (List (List ℚ))) : List (List (List ℚ)) :=
  let b2 := if b.length = 1 then List.replicate a.length (b.headD []) else b
  List.zipWith (fun x y => List.zipWith (fun u v => List.zipWith (· + ·) u v) x y)
    a b2

/-- The position embedding actually added to the model input
(source lines 337-345): in eval mode, repeat the embedding over the
batch when necessary and shift it with `_shift_padded_seq`; in
training mode use it unshifted. -/
def posEmbUsed (do_eval : Bool) (B : Nat) (patched_padding : List (List ℚ))
    (position_emb : List (List (List ℚ))) : List (List (List ℚ)) :=
  if do_eval then
    _shift_padded_seq patched_padding
      (if position_emb.length ≠ B
       then position_emb.flatMap (fun r => List.replicate B r)
       else position_emb)
  else position_emb

/-- Source lines 323-333 up to `model_input = self.input_ff_layer(...)`:
patch the inputs, force and patch the padding, run the forward
transform, zero out padded positions, concatenate with the patched
padding along the last axis and project through the (external)
input residual block `inputFF`. -/
def preModelInput (P : Nat) (inputFF : List ℚ → List ℚ) (sqrt : ℚ → ℚ)
    (input_ts input_padding : List (List ℚ)) : List (List (List ℚ)) :=
  let patched_inputs := input_ts.map (chunk P)
  let input_padding2 := List.zipWith forcePadding input_ts input_padding
  let patched_pads := input_padding2.map (chunk P)
  let ft := _forward_transform sqrt patched_inputs patched_pads
  let zeroed := List.zipWith
    (fun row prow => List.zipWith
      (fun pat ppat => List.zipWith (fun x p => x * (1 - p)) pat ppat) row prow)
    ft.1 patched_pads
  let concat_inputs := List.zipWith
    (fun row prow => List.zipWith (fun pat ppat => pat ++ ppat) row prow)
    zeroed patched_pads
  concat_inputs.map (fun row => row.map inputFF)

/-- The zeroed normalized patches returned by the preprocessor
(source line 331). -/
def preZeroedPatches (P : Nat) (sqrt : ℚ → ℚ)
    (input_ts input_padding : List (List ℚ)) : List (List (List ℚ)) :=
  let patched_inputs := input_ts.map (chunk P)
  let input_padding2 := List.zipWith forcePadding input_ts input_padding
  let patched_pads := input_padding2.map (chunk P)
  let ft := _forward_transform sqrt patched_inputs patched_pads
  List.zipWith
    (fun row prow => List.zipWith
      (fun pat ppat => List.zipWith (fun x p => x * (1 - p)) pat ppat) row prow)
    ft.1 patched_pads

/-- The statistics computed by the preprocessor (source line 329). -/
def preStats (P : Nat) (sqrt : ℚ → ℚ)
    (input_ts input_padding : List (List ℚ)) : List ℚ × List ℚ :=
  (_forward_transform sqrt (input_ts.map (chunk P))
    ((List.zipWith forcePadding input_ts input_padding).map (chunk P))).2

/-- The patch-level padding computed by the preprocessor
(source lines 325-335), for the whole batch. -/
def prePatchedPadding (P : Nat) (input_ts input_padding : List (List ℚ)) :
    List (List ℚ) :=
  List.zipWith (patchedPaddingOf P) input_ts input_padding

/-- `PatchedTimeSeriesDecoder._preprocess_input` (source lines
316-347). `inputFF` is the external input residual block and
`posEmbFn` the external positional-embedding table (returning a
`1 × N × D` embedding for a sequence length `N`); `do_eval` is the
`self.do_eval` flag. Returns
`(model_input, patched_padding, stats, patched_inputs)`. -/
def _preprocess_input (P : Nat) (inputFF : List ℚ → List ℚ)
    (posEmbFn : Nat → List (List (List ℚ))) (do_eval : Bool) (sqrt : ℚ → ℚ)
    (input_ts input_padding : List (List ℚ))
    (pos_emb : Option (List (List (List ℚ)))) :
    List (List (List ℚ)) × List (List ℚ) × (List ℚ × List ℚ) ×
      List (List (List ℚ)) :=
  let model_input0 := preModelInput P inputFF sqrt input_ts input_padding
  let patched_padding := prePatchedPadding P input_ts input_padding
  let position_emb := match pos_emb with
    | none => posEmbFn (shape1 model_input0)
    | some pe => pe
  let pe_used := posEmbUsed do_eval model_input0.length patched_padding
    position_emb
  (addBC model_input0 pe_used, patched_padding,
   preStats P sqrt input_ts input_padding,
   preZeroedPatches P sqrt input_ts input_padding)

/-! ### `decode` (source lines 395-453) -/

/-- One iteration of the decode loop (source lines 434-448).
`cm` is the forward pass `self(model_input)[_OUTPUT_TS]`, taking the
current `input_ts`, `input_padding` and `freq` and returning the
`B × N × H × Q` forecast grid; the state is
`(final_out, full_outputs)`. -/
def decodeStep
    (cm : List (List ℚ) → List (List ℚ) → List (List ℚ) →
      List (List (List (List ℚ))))
    (freq : List (List ℚ)) (max_len output_patch_len : Nat)
    (paddings : List (List ℚ))
    (st : List (List ℚ) × List (List (List (List ℚ)))) :
    List (List ℚ) × List (List (List (List ℚ))) :=
  let final_out := st.1
  let current_padding := paddings.map (fun row => row.take (shape1 final_out))
  let input_ts := final_out.map (takeLast max_len)
  let input_padding := current_padding.map (takeLast max_len)
  let fprop_outputs := cm input_ts input_padding freq
  let new_ts := fprop_outputs.map
    (fun grid => ((grid.getLastD []).take output_patch_len).map
      (fun chan => chan.getD 0 0))
  let chunk_full := fprop_outputs.map
    (fun grid => (grid.getLastD []).take output_patch_len)
  (List.zipWith (fun row nt => row ++ nt) final_out new_ts,
   st.2 ++ [chunk_full])

/-- The decode loop: `num_decode_patches` iterations of `decodeStep`. -/
def decodeLoop
    (cm : List (List ℚ) → List (List ℚ) → List (List ℚ) →
      List (List (List (List ℚ))))
    (freq : List (List ℚ)) (max_len output_patch_len : Nat)
    (paddings : List (List ℚ)) :
    Nat → List (List ℚ) × List (List (List (List ℚ))) →
      List (List ℚ) × List (List (List (List ℚ)))
  | 0, st => st
  | n + 1, st =>
    decodeLoop cm freq max_len output_patch_len paddings n
      (decodeStep cm freq max_len output_patch_len paddings st)

/-- `jnp.concatenate(full_outputs, axis=1)` for a nonempty list of
`B × L × Q` chunks. -/
def concat1 : List (List (List α)) → List (List α)
  | [] => []
  | [c] => c
  | c :: cs => List.zipWith (· ++ ·) c (concat1 cs)

/-- `PatchedTimeSeriesDecoder.decode` (source lines 395-453). The
forward pass is abstracted as `cm` (it is built from the external
transformer stack); `native_horizon` is `self.horizon_len`. Returns
the point forecast and the full forecast, or the `ValueError` message
on a shape mismatch. -/
def decode
    (cm : List (List ℚ) → List (List ℚ) → List (List ℚ) →
      List (List (List (List ℚ))))
    (freq : List (List ℚ)) (horizon_len : Nat)
    (output_patch_len : Option Nat) (native_horizon max_len : Nat)
    (input_ts paddings : List (List ℚ)) :
    Except String (List (List ℚ) × List (List (List ℚ))) :=
  let final_out := input_ts
  let inp_time_len := shape1 final_out
  if shape1 paddings ≠ inp_time_len + horizon_len then
    .error "Length of paddings must match length of input + horizon_len"
  else
    let opl := output_patch_len.getD native_horizon
    let num_decode_patches := (horizon_len + opl - 1) / opl
    let st := decodeLoop cm freq max_len opl paddings num_decode_patches
      (final_out, [])
    .ok (st.1.map (fun row => (row.drop inp_time_len).take horizon_len),
         (concat1 st.2).map (fun row => row.take horizon_len))

/-! ### Reference (spec-side) definitions used for refinement claims -/

/-- Spec-side patch selection (claim C3): the first patch whose count
of non-padded positions is at least `3`, or the last patch when none
qualifies. -/
def selectedPatchSpec (padding : List (List ℚ)) : Nat :=
  match (padding.map (fun pat => pat.countP (fun x => decide (x = 0)))).findIdx?
      (fun c => decide (3 ≤ c)) with
  | some i => i
  | none => padding.length - 1

/-- The values of `patch` at the non-padded positions (padding `0`). -/
def maskedVals (patch pad : List ℚ) : List ℚ :=
  (patch.zip pad).filterMap (fun q => if q.2 = 0 then some q.1 else none)

/-- Spec-side divisor: the number of non-padded values, or `1` when
there are none. -/
def specDiv (vals : List ℚ) : ℚ :=
  if vals.length = 0 then 1 else (vals.length : ℚ)

/-- Spec-side mean over the non-padded values. -/
def specMean (vals : List ℚ) : ℚ := vals.sum / specDiv vals

/-- Spec-side variance over the non-padded values, clamped at `0`. -/
def specVar (vals : List ℚ) : ℚ :=
  if (vals.map (fun x => x ^ 2)).sum / specDiv vals - specMean vals ^ 2 < 0
  then 0
  else (vals.map (fun x => x ^ 2)).sum / specDiv vals - specMean vals ^ 2

/-- Spec-side statistics of one patch (claim C3): mean and std over
the non-padded positions only, with divisor `1` when no position is
non-padded, variance clamped at `0`. -/
def statsOfPatchSpec (sqrt : ℚ → ℚ) (patch pad : List ℚ) : ℚ × ℚ :=
  (specMean (maskedVals patch pad), sqrt (specVar (maskedVals patch pad)))

/-- Binary padding invariant from the data model: every entry is `0`
or `1`. -/
def IsBinary (l : List ℚ) : Prop := ∀ x ∈ l, x = 0 ∨ x = 1

instance : DecidablePred IsBinary := fun l =>
  List.decidableBAll (fun x => x = 0 ∨ x = 1) l

/-! ### Concrete instances used by witnesses and counterexamples -/

/-- A square-root stand-in that is exact at `4` (the only variance a
concrete development below produces). -/
def sqrtC1 : ℚ → ℚ := fun v => if v = 4 then 2 else 0

/-- The identity as a nonnegativity-preserving square-root stand-in. -/
def sqrtId : ℚ → ℚ := fun v => v

/-- A constant toy forward pass returning one patch with a horizon of
two offsets and two output channels, for one batch row. -/
def cmToy : List (List ℚ) → List (List ℚ) → List (List ℚ) →
    List (List (List (List ℚ))) :=
  fun _ _ _ => [[[[10, 11], [12, 13]]]]

/-- A second toy forward pass, distinguishable from `cmToy`. -/
def cmToy2 : List (List ℚ) → List (List ℚ) → List (List ℚ) →
    List (List (List (List ℚ))) :=
  fun _ _ _ => [[[[20, 21], [22, 23]]]]

/-! ### Generic helper lemmas -/

theorem tfm_getD_map (f : α → β) (l : List α) (i : Nat) (h : i < l.length)
    (da : α) (db : β) : (l.map f).getD i db = f (l.getD i da) := by
  induction l generalizing i with
  | nil => simp at h
  | cons x xs ih =>
    cases i with
    | zero => simp
    | succ j => simpa using ih j (by simpa using h)

theorem tfm_getD_zipWith (f : α → β → γ) (as : List α) (bs : List β) (i : Nat)
    (ha : i < as.length) (hb : i < bs.length) (da : α) (db : β) (dc : γ) :
    (List.zipWith f as bs).getD i dc = f (as.getD i da) (bs.getD i db) := by
  induction as generalizing bs i with
  | nil => simp at ha
  | cons a as ih =>
    cases bs with
    | nil => simp at hb
    | cons b bs =>
      cases i with
      | zero => simp
      | succ j =>
        simpa using ih bs j (by simpa using ha) (by simpa using hb)

theorem tfm_mem_zipWith {f : α → β → γ} {as : List α} {bs : List β} {c : γ}
    (h : c ∈ List.zipWith f as bs) : ∃ a ∈ as, ∃ b ∈ bs, c = f a b := by
  induction as generalizing bs with
  | nil => simp at h
  | cons a as ih =>
    cases bs with
    | nil => simp at h
    | cons b bs =>
      rcases (by simpa using h) with h1 | h2
      · exact ⟨a, by simp, b, by simp, h1⟩
      · rcases ih h2 with ⟨a', ha', b', hb', hc⟩
        exact ⟨a', by simp [ha'], b', by simp [hb'], hc⟩

theorem tfm_zipWith_congr_to_map {f : α → β → γ} {g : α → γ}
    (x : List α) (z : List β) (hlen : z.length = x.length)
    (h : ∀ a ∈ x, ∀ c ∈ z, f a c = g a) : List.zipWith f x z = x.map g := by
  induction x generalizing z with
  | nil => simp
  | cons a as ih =>
    cases z with
    | nil => simp at hlen
    | cons c cs =>
      simp only [List.zipWith_cons_cons, List.map_cons]
      refine congrArg₂ _ (h a (by simp) c (by simp)) ?_
      exact ih cs (by simpa using hlen)
        (fun a' ha' c' hc' => h a' (by simp [ha']) c' (by simp [hc']))

theorem tfm_zipWith_zipWith_same (f : β → α → γ) (g : δ → α → β)
    (x : List δ) (z : List α) :
    List.zipWith f (List.zipWith g x z) z
      = List.zipWith (fun d a => f (g d a) a) x z := by
  induction x generalizing z with
  | nil => simp
  | cons a as ih =>
    cases z with
    | nil => simp
    | cons c cs => simpa using ih cs

/-! ### Lemmas about the statistics and lengths -/

theorem mms_fst (sqrt : ℚ → ℚ) (x pads : List (List (List ℚ))) :
    (_masked_mean_std sqrt x pads).1
      = (List.zipWith (_masked_mean_std_row sqrt) x pads).map Prod.fst := by
  simp [_masked_mean_std, List.unzip_eq_map]

theorem mms_snd (sqrt : ℚ → ℚ) (x pads : List (List (List ℚ))) :
    (_masked_mean_std sqrt x pads).2
      = (List.zipWith (_masked_mean_std_row sqrt) x pads).map Prod.snd := by
  simp [_masked_mean_std, List.unzip_eq_map]

theorem mms_fst_length (sqrt : ℚ → ℚ) (x pads : List (List (List ℚ)))
    (hlen : pads.length = x.length) :
    (_masked_mean_std sqrt x pads).1.length = x.length := by
  simp [mms_fst, hlen]

theorem mms_snd_length (sqrt : ℚ → ℚ) (x pads : List (List (List ℚ)))
    (hlen : pads.length = x.length) :
    (_masked_mean_std sqrt x pads).2.length = x.length := by
  simp [mms_snd, hlen]

/-- The sentinel is far from `0`: a default out-of-range read can
never pass the sentinel test. -/
theorem zero_not_sentinel : ¬ |(0 : ℚ) - PAD_VAL| < _TOLERANCE := by
  norm_num [PAD_VAL, _TOLERANCE]

/-- Indexing the output of `_forward_transform` at an in-range
position. -/
theorem forward_getD (sqrt : ℚ → ℚ) (x pads : List (List (List ℚ)))
    (hlen : pads.length = x.length) (b n p : Nat) (hb : b < x.length)
    (hn : n < (x.getD b []).length)
    (hp : p < ((x.getD b []).getD n []).length) :
    (((_forward_transform sqrt x pads).1.getD b []).getD n []).getD p 0
      = (if |((x.getD b []).getD n []).getD p 0 - PAD_VAL| < _TOLERANCE
         then PAD_VAL
         else (((x.getD b []).getD n []).getD p 0
              - (_masked_mean_std sqrt x pads).1.getD b 0)
            / floorStd ((_masked_mean_std sqrt x pads).2.getD b 0)) := by
  have hmu : (_masked_mean_std sqrt x pads).1.length = x.length :=
    mms_fst_length sqrt x pads hlen
  have hs2 : (_masked_mean_std sqrt x pads).2.length = x.length :=
    mms_snd_length sqrt x pads hlen
  have hsi : ((_masked_mean_std sqrt x pads).2.map floorStd).length = x.length := by
    simp [mms_snd_length sqrt x pads hlen]
  have hzip : ((_masked_mean_std sqrt x pads).1.zip
      ((_masked_mean_std sqrt x pads).2.map floorStd)).length = x.length := by
    simp [List.length_zip, hmu, hsi]
  unfold _forward_transform
  simp only []
  rw [tfm_getD_zipWith _ x _ b hb (by omega) [] (0, 0) []]
  rw [tfm_getD_map _ _ n hn [] []]
  rw [tfm_getD_map _ _ p hp 0 0]
  have hz : ((_masked_mean_std sqrt x pads).1.zip
        ((_masked_mean_std sqrt x pads).2.map floorStd)).getD b (0, 0)
      = ((_masked_mean_std sqrt x pads).1.getD b 0,
         floorStd ((_masked_mean_std sqrt x pads).2.getD b 0)) := by
    rw [List.zip]
    rw [tfm_getD_zipWith Prod.mk _ _ b (by omega) (by omega) 0 0 (0, 0)]
    rw [tfm_getD_map floorStd _ b (by omega) 0 0]
  rw [hz]

/-! ### Claim C2 -/

/-- Claim C2 (sentinel preservation): for every input batch of patches,
every position whose value is within tolerance `1e-7` of the pad
sentinel `1123581321.0` holds exactly the pad sentinel value again
after the forward normalization transform, regardless of the values at
all other positions and of the computed mean/std. -/
theorem C2_sentinel_preservation (sqrt : ℚ → ℚ)
    (x pads : List (List (List ℚ))) (hlen : pads.length = x.length)
    (b n p : Nat) (hb : b < x.length)
    (hv : |((x.getD b []).getD n []).getD p 0 - PAD_VAL| < _TOLERANCE) :
    (((_forward_transform sqrt x pads).1.getD b []).getD n []).getD p 0
      = PAD_VAL := by
  by_cases hn : n < (x.getD b []).length
  · by_cases hp : p < ((x.getD b []).getD n []).length
    · rw [forward_getD sqrt x pads hlen b n p hb hn hp, if_pos hv]
    · exfalso
      apply zero_not_sentinel
      have h0 : ((x.getD b []).getD n []).getD p 0 = 0 :=
        List.getD_eq_default _ _ (by omega)
      rwa [h0] at hv
  · exfalso
    apply zero_not_sentinel
    have h1 : (x.getD b []).getD n [] = ([] : List ℚ) :=
      List.getD_eq_default _ _ (by omega)
    rw [h1] at hv
    simpa using hv

/-- Witness for C2 at a concrete input containing the sentinel. -/
theorem C2_sentinel_preservation_witness :
    (((_forward_transform sqrtId [[[PAD_VAL, 1]]] [[[1, 0]]]).1.getD 0 []).getD
        0 []).getD 0 0 = PAD_VAL :=
  C2_sentinel_preservation sqrtId [[[PAD_VAL, 1]]] [[[1, 0]]] rfl 0 0 0
    (by norm_num) (by norm_num [_TOLERANCE])

/-! ### Claim C1 -/

/-- Claim C1, amended (round-trip normalization): for every batch of
patches `x` with matching padding, when every per-example std computed
from `x` is at least the tolerance `1e-7` (so the flooring to `1.0`
does not fire) and no position of `x` is within tolerance of the pad
sentinel, applying the reverse transform with the returned statistics
to the output of the forward transform of `x` returns `x` elementwise
exactly.  (The sentinel restriction is forced: the forward transform
overwrites sentinel positions with `PAD_VAL`, which the reverse
transform maps to `std * PAD_VAL + mean ≠ PAD_VAL`; see the
counterexample.) -/
theorem C1_round_trip_amended (sqrt : ℚ → ℚ) (x pads : List (List (List ℚ)))
    (hlen : pads.length = x.length)
    (hstd : ∀ s ∈ (_masked_mean_std sqrt x pads).2, _TOLERANCE ≤ s)
    (hsent : ∀ row ∈ x, ∀ pat ∈ row, ∀ v ∈ pat,
      ¬ |v - PAD_VAL| < _TOLERANCE) :
    _reverse_transform (toQ1 (_forward_transform sqrt x pads).1)
      (_forward_transform sqrt x pads).2 = toQ1 x := by
  have hz_len : ((_masked_mean_std sqrt x pads).1.zip
      ((_masked_mean_std sqrt x pads).2.map floorStd)).length = x.length := by
    simp [List.length_zip, mms_fst_length sqrt x pads hlen,
      mms_snd_length sqrt x pads hlen]
  unfold _reverse_transform _forward_transform toQ1
  simp only [List.map_zipWith]
  rw [tfm_zipWith_zipWith_same]
  apply tfm_zipWith_congr_to_map _ _ hz_len
  intro row hrow c hc
  obtain ⟨μb, σb⟩ := c
  obtain ⟨hμmem, hσmem⟩ := List.of_mem_zip hc
  obtain ⟨s0, hs0mem, hs0⟩ := List.mem_map.mp hσmem
  have htol := hstd s0 hs0mem
  have hσpos : (0 : ℚ) < σb := by
    rw [← hs0]
    unfold floorStd
    rw [if_neg (by exact not_lt.mpr htol)]
    calc (0 : ℚ) < _TOLERANCE := by norm_num [_TOLERANCE]
    _ ≤ s0 := htol
  have hσne : σb ≠ 0 := ne_of_gt hσpos
  simp only [List.map_map]
  apply List.map_congr_left
  intro pat hpat
  simp only [Function.comp_apply, List.map_map, Function.comp_def]
  apply List.map_congr_left
  intro v hv
  have hns := hsent row hrow pat hpat v hv
  simp only [if_neg hns, List.map_cons, List.map_nil]
  rw [div_mul_cancel₀ _ hσne, sub_add_cancel]

/-- Witness for the amended C1 at a concrete sentinel-free input with
std `2 ≥ 1e-7`. -/
theorem C1_round_trip_witness :
    _reverse_transform
        (toQ1 (_forward_transform sqrtC1 [[[1, 1, 5, 5]]] [[[0, 0, 0, 0]]]).1)
        (_forward_transform sqrtC1 [[[1, 1, 5, 5]]] [[[0, 0, 0, 0]]]).2
      = toQ1 [[[1, 1, 5, 5]]] :=
  C1_round_trip_amended sqrtC1 [[[1, 1, 5, 5]]] [[[0, 0, 0, 0]]] rfl
    (by
      have h2 : (_masked_mean_std sqrtC1 [[[1, 1, 5, 5]]]
          [[[0, 0, 0, 0]]]).2 = [2] := by
        norm_num [_masked_mean_std, _masked_mean_std_row, _get_patch_index,
          padSumRow, jnpArgmaxBool, List.findIdx_cons, maskedMeanRow,
          maskedVarRow, numValidEff, sqrtC1]
      rw [h2]
      intro s hs
      rw [List.mem_singleton.mp hs]
      norm_num [_TOLERANCE])
    (by
      intro row hrow pat hpat v hv
      simp only [List.mem_singleton] at hrow
      subst hrow
      simp only [List.mem_singleton] at hpat
      subst hpat
      simp only [List.mem_cons, List.not_mem_nil, or_false] at hv
      rcases hv with h | h | h | h <;> subst h <;>
        norm_num [PAD_VAL, _TOLERANCE])

/-- Counterexample to C1 as stated: the input
`x = [[[PAD_VAL, 1, 1, 5, 5]]]` with matching padding
`[[[1, 0, 0, 0, 0]]]` has std `2 ≥ 1e-7`, yet the round trip returns
`2 * PAD_VAL + 3` at the sentinel position, which differs from the
original `PAD_VAL` by far more than the tolerance. -/
theorem C1_round_trip_counterexample :
    (_masked_mean_std sqrtC1 [[[PAD_VAL, 1, 1, 5, 5]]]
        [[[1, 0, 0, 0, 0]]]).2 = [2] ∧
    ((((_reverse_transform
          (toQ1 (_forward_transform sqrtC1 [[[PAD_VAL, 1, 1, 5, 5]]]
            [[[1, 0, 0, 0, 0]]]).1)
          (_forward_transform sqrtC1 [[[PAD_VAL, 1, 1, 5, 5]]]
            [[[1, 0, 0, 0, 0]]]).2).getD 0 []).getD 0 []).getD 0 []).getD 0 0
      = 2 * PAD_VAL + 3 ∧
    ((([[[PAD_VAL, 1, 1, 5, 5]]].getD 0 []).getD 0 []).getD 0 0 : ℚ)
      = PAD_VAL ∧
    _TOLERANCE < |(2 * PAD_VAL + 3) - PAD_VAL| := by
  refine ⟨?_, ?_, ?_, ?_⟩ <;>
    norm_num [_masked_mean_std, _masked_mean_std_row, _get_patch_index,
      padSumRow, jnpArgmaxBool, List.findIdx_cons, maskedMeanRow,
      maskedVarRow, numValidEff, sqrtC1, _reverse_transform, toQ1,
      _forward_transform, floorStd, PAD_VAL, _TOLERANCE]

/-! ### Claim C4 -/

/-- The floored std is positive for every argument: either the floor
`1.0` fires, or the value is at least the (positive) tolerance. -/
theorem floorStd_pos (s : ℚ) : 0 < floorStd s := by
  unfold floorStd
  split
  · norm_num
  · calc (0 : ℚ) < _TOLERANCE := by norm_num [_TOLERANCE]
    _ ≤ s := le_of_not_lt (by assumption)

/-- For binary padding the masked count is nonnegative. -/
theorem sum_one_sub_nonneg (pad : List ℚ) (hbin : IsBinary pad) :
    0 ≤ (pad.map (fun x => 1 - x)).sum := by
  induction pad with
  | nil => simp
  | cons p rest ih =>
    have hp := hbin p (by simp)
    have hr : IsBinary rest := fun x hx => hbin x (by simp [hx])
    have := ih hr
    rcases hp with h | h <;> subst h <;> simp <;> linarith

/-- The effective divisor `num_valid_elements` is positive for binary
padding: it is the masked count when that is nonzero, else `1`. -/
theorem numValidEff_pos (pad : List ℚ) (hbin : IsBinary pad) :
    0 < numValidEff pad := by
  have h : numValidEff pad
      = if (pad.map (fun x => 1 - x)).sum = 0 then 1
        else (pad.map (fun x => 1 - x)).sum := rfl
  rw [h]
  split
  · norm_num
  · exact lt_of_le_of_ne (sum_one_sub_nonneg pad hbin) (Ne.symm (by assumption))

/-- The clamped variance is nonnegative by construction. -/
theorem maskedVarRow_nonneg (arr pad : List ℚ) :
    0 ≤ maskedVarRow arr pad := by
  have h : maskedVarRow arr pad
      = if ((List.zipWith (· * ·) arr (pad.map (fun x => 1 - x))).map
            (fun x => x ^ 2)).sum / numValidEff pad
            - maskedMeanRow arr pad ^ 2 < 0 then 0
        else ((List.zipWith (· * ·) arr (pad.map (fun x => 1 - x))).map
            (fun x => x ^ 2)).sum / numValidEff pad
            - maskedMeanRow arr pad ^ 2 := rfl
  rw [h]
  split
  · rfl
  · exact le_of_not_lt (by assumption)

/-- Claim C4 (degenerate-statistics totality): for every input with
binary padding (including a selected patch whose positions are all
padded), the statistics computation and forward transform never divide
by zero: the count divisor is replaced by `1` when the selected patch
has no non-padded position, the variance is clamped to at least `0`
before the square root is taken (so, for a square root that is
nonnegative on nonnegative arguments, every pre-floor std is
nonnegative), and every std used as a divisor by the forward transform
is strictly positive because values below the tolerance `1e-7` are
replaced by `1.0`. -/
theorem C4_degenerate_totality (sqrt : ℚ → ℚ) (x pads : List (List (List ℚ)))
    (hs : ∀ v : ℚ, 0 ≤ v → 0 ≤ sqrt v)
    (hbin : ∀ row ∈ pads, ∀ pat ∈ row, IsBinary pat) :
    (∀ s ∈ (_forward_transform sqrt x pads).2.2, 0 < s) ∧
    (∀ s ∈ (_masked_mean_std sqrt x pads).2, 0 ≤ s) ∧
    (∀ b < pads.length,
      0 < numValidEff ((pads.getD b []).getD
        (_get_patch_index (padSumRow (pads.getD b []))) [])) ∧
    (∀ b < pads.length,
      0 ≤ maskedVarRow
        ((x.getD b []).getD (_get_patch_index (padSumRow (pads.getD b []))) [])
        ((pads.getD b []).getD
          (_get_patch_index (padSumRow (pads.getD b []))) [])) := by
  refine ⟨?_, ?_, ?_, ?_⟩
  · intro s hsmem
    have : (_forward_transform sqrt x pads).2.2
        = (_masked_mean_std sqrt x pads).2.map floorStd := rfl
    rw [this] at hsmem
    obtain ⟨s0, _, hs0⟩ := List.mem_map.mp hsmem
    rw [← hs0]
    exact floorStd_pos s0
  · intro s hsmem
    rw [mms_snd] at hsmem
    obtain ⟨pr, hpr, hs0⟩ := List.mem_map.mp hsmem
    obtain ⟨xi, _, pi, _, hpr_eq⟩ := tfm_mem_zipWith hpr
    rw [← hs0, hpr_eq]
    exact hs _ (maskedVarRow_nonneg _ _)
  · intro b hb
    apply numValidEff_pos
    intro v hv
    by_cases hin : _get_patch_index (padSumRow (pads.getD b []))
        < (pads.getD b []).length
    · have hrow : pads.getD b [] ∈ pads := by
        rw [List.getD_eq_getElem _ _ hb]
        exact List.getElem_mem hb
      have hpat : (pads.getD b []).getD
          (_get_patch_index (padSumRow (pads.getD b []))) []
          ∈ pads.getD b [] := by
        rw [List.getD_eq_getElem _ _ hin]
        exact List.getElem_mem hin
      exact hbin _ hrow _ hpat v hv
    · rw [List.getD_eq_default _ _ (by omega)] at hv
      simp at hv
  · intro b _
    exact maskedVarRow_nonneg _ _

/-- Witness for C4 at a fully padded single-patch input (the
degenerate case: zero non-padded positions). -/
theorem C4_degenerate_totality_witness :
    (∀ s ∈ (_forward_transform sqrtId [[[5, 5]]] [[[1, 1]]]).2.2, 0 < s) ∧
    (∀ s ∈ (_masked_mean_std sqrtId [[[5, 5]]] [[[1, 1]]]).2, 0 ≤ s) ∧
    (∀ b < ([[[(1 : ℚ), 1]]] : List (List (List ℚ))).length,
      0 < numValidEff ((([[[(1 : ℚ), 1]]] : List (List (List ℚ))).getD b []).getD
        (_get_patch_index (padSumRow (([[[(1 : ℚ), 1]]] :
          List (List (List ℚ))).getD b []))) [])) ∧
    (∀ b < ([[[(1 : ℚ), 1]]] : List (List (List ℚ))).length,
      0 ≤ maskedVarRow
        ((([[[(5 : ℚ), 5]]] : List (List (List ℚ))).getD b []).getD
          (_get_patch_index (padSumRow (([[[(1 : ℚ), 1]]] :
            List (List (List ℚ))).getD b []))) [])
        ((([[[(1 : ℚ), 1]]] : List (List (List ℚ))).getD b []).getD
          (_get_patch_index (padSumRow (([[[(1 : ℚ), 1]]] :
            List (List (List ℚ))).getD b []))) [])) :=
  C4_degenerate_totality sqrtId [[[5, 5]]] [[[1, 1]]]
    (fun v hv => hv) (by decide)

/-! ### Claim C5 -/

theorem foldl_min_mem (xs : List ℚ) (a : ℚ) :
    xs.foldl min a ∈ a :: xs := by
  induction xs generalizing a with
  | nil => simp
  | cons y ys ih =>
    simp only [List.foldl_cons]
    have h := ih (min a y)
    rcases List.mem_cons.mp h with h2 | h2
    · rw [h2]
      rcases min_choice a y with h1 | h1 <;> rw [h1] <;> simp
    · simp [h2]

theorem foldl_min_le (xs : List ℚ) (a : ℚ) :
    xs.foldl min a ≤ a ∧ ∀ x ∈ xs, xs.foldl min a ≤ x := by
  induction xs generalizing a with
  | nil => simp
  | cons y ys ih =>
    obtain ⟨h1, h2⟩ := ih (min a y)
    refine ⟨le_trans h1 (min_le_left a y), ?_⟩
    intro x hx
    rcases List.mem_cons.mp hx with h3 | h3
    · rw [h3]
      exact le_trans h1 (min_le_right a y)
    · exact h2 x h3

theorem listMin_mem (l : List ℚ) (h : l ≠ []) : listMin l ∈ l := by
  cases l with
  | nil => exact absurd rfl h
  | cons x xs => exact foldl_min_mem xs x

theorem listMin_le (l : List ℚ) (x : ℚ) (hx : x ∈ l) : listMin l ≤ x := by
  cases l with
  | nil => simp at hx
  | cons y ys =>
    show ys.foldl min y ≤ x
    rcases List.mem_cons.mp hx with h | h
    · rw [h]
      exact (foldl_min_le ys y).1
    · exact (foldl_min_le ys y).2 x h

/-- Sentinel forcing preserves binary padding. -/
theorem forcePadding_binary (ts pad : List ℚ) (hbin : IsBinary pad) :
    IsBinary (forcePadding ts pad) := by
  intro v hv
  obtain ⟨a, _, b, hb, hv_eq⟩ := tfm_mem_zipWith hv
  subst hv_eq
  split
  · right; rfl
  · exact hbin b hb

/-- Every element of a patch produced by `chunk` is an element of the
original row. -/
theorem chunk_mem (p : Nat) (l : List ℚ) (pat : List ℚ)
    (hpat : pat ∈ chunk p l) (x : ℚ) (hx : x ∈ pat) : x ∈ l := by
  unfold chunk at hpat
  revert hpat
  generalize l.length / p = n
  intro hpat
  induction n generalizing l with
  | zero => simp [chunkAux] at hpat
  | succ m ih =>
    simp only [chunkAux, List.mem_cons] at hpat
    rcases hpat with h | h
    · subst h
      exact List.take_subset p l hx
    · exact List.drop_subset p l (ih (l.drop p) h)

/-- Claim C5 (patch-level padding aggregation): for binary per-position
padding, the patch-level padding computed by the preprocessor equals,
for each patch, the minimum of the per-position (sentinel-forced)
padding values within that patch; hence a patch is marked padded
(value 1) exactly when every one of its positions is padded, and is
marked valid (value 0) exactly when it contains at least one
non-padded position. -/
theorem C5_patch_padding_min (P : Nat) (ts pad : List ℚ)
    (hbin : IsBinary pad) (n : Nat)
    (hne : (chunk P (forcePadding ts pad)).getD n [] ≠ []) :
    ((patchedPaddingOf P ts pad).getD n 0
      = listMin ((chunk P (forcePadding ts pad)).getD n [])) ∧
    ((patchedPaddingOf P ts pad).getD n 0 = 1
      ↔ ∀ x ∈ (chunk P (forcePadding ts pad)).getD n [], x = 1) ∧
    ((patchedPaddingOf P ts pad).getD n 0 = 0
      ↔ (0 : ℚ) ∈ (chunk P (forcePadding ts pad)).getD n []) := by
  have hn : n < (chunk P (forcePadding ts pad)).length := by
    by_contra hcon
    exact hne (List.getD_eq_default _ _ (by omega))
  have heq : (patchedPaddingOf P ts pad).getD n 0
      = listMin ((chunk P (forcePadding ts pad)).getD n []) :=
    tfm_getD_map listMin _ n hn [] 0
  have hpatmem : (chunk P (forcePadding ts pad)).getD n []
      ∈ chunk P (forcePadding ts pad) := by
    rw [List.getD_eq_getElem _ _ hn]
    exact List.getElem_mem hn
  have hpatbin : IsBinary ((chunk P (forcePadding ts pad)).getD n []) :=
    fun x hx => forcePadding_binary ts pad hbin x
      (chunk_mem P (forcePadding ts pad) _ hpatmem x hx)
  have hminmem := listMin_mem _ hne
  refine ⟨heq, ?_, ?_⟩
  · constructor
    · intro h1 x hx
      have hle := listMin_le _ x hx
      rw [heq] at h1
      rw [h1] at hle
      rcases hpatbin x hx with h | h
      · exfalso; rw [h] at hle; norm_num at hle
      · exact h
    · intro hall
      rw [heq]
      exact hall _ hminmem
  · constructor
    · intro h0
      rw [heq] at h0
      rw [← h0]
      exact hminmem
    · intro h0
      rw [heq]
      have hle := listMin_le _ 0 h0
      rcases hpatbin _ hminmem with h | h
      · exact h
      · exfalso; rw [h] at hle; norm_num at hle

/-- Witness for C5: a patch with one padded and one valid position is
marked valid (its min is 0), and a sentinel position is forced to
padding 1. -/
theorem C5_patch_padding_min_witness :
    ((patchedPaddingOf 2 [1, 2, PAD_VAL, 4] [0, 1, 1, 0]).getD 1 0
      = listMin ((chunk 2 (forcePadding [1, 2, PAD_VAL, 4]
          [0, 1, 1, 0])).getD 1 [])) ∧
    ((patchedPaddingOf 2 [1, 2, PAD_VAL, 4] [0, 1, 1, 0]).getD 1 0 = 1
      ↔ ∀ x ∈ (chunk 2 (forcePadding [1, 2, PAD_VAL, 4]
          [0, 1, 1, 0])).getD 1 [], x = 1) ∧
    ((patchedPaddingOf 2 [1, 2, PAD_VAL, 4] [0, 1, 1, 0]).getD 1 0 = 0
      ↔ (0 : ℚ) ∈ (chunk 2 (forcePadding [1, 2, PAD_VAL, 4]
          [0, 1, 1, 0])).getD 1 []) :=
  C5_patch_padding_min 2 [1, 2, PAD_VAL, 4] [0, 1, 1, 0] (by decide) 1
    (by
      have h : (chunk 2 (forcePadding [1, 2, PAD_VAL, 4]
          [0, 1, 1, 0])).getD 1 [] = [1, 0] := by
        norm_num [chunk, chunkAux, forcePadding, PAD_VAL, _TOLERANCE]
      rw [h]
      simp)

/-! ### Claim C3 -/

theorem tfm_findIdx_map (f : α → β) (p : β → Bool) (l : List α) :
    (l.map f).findIdx p = l.findIdx (fun a => p (f a)) := by
  induction l with
  | nil => simp
  | cons a l ih => simp [List.findIdx_cons, ih]

theorem tfm_findIdx?_some (p : α → Bool) (l : List α) (i : Nat)
    (h : ∃ x ∈ l, p x = true) : l.findIdx? p i = some (l.findIdx p + i) := by
  induction l generalizing i with
  | nil => simp at h
  | cons a l ih =>
    rw [List.findIdx?_cons, List.findIdx_cons]
    cases hpa : p a with
    | true => simp
    | false =>
      have h2 : ∃ x ∈ l, p x = true := by
        rcases h with ⟨x, hx, hpx⟩
        rcases List.mem_cons.mp hx with h3 | h3
        · rw [h3, hpa] at hpx; exact absurd hpx (by simp)
        · exact ⟨x, h3, hpx⟩
      rw [if_neg (by simp [hpa]), ih (i + 1) h2]
      simp only [Bool.cond_false]
      exact congrArg some (by omega)

theorem tfm_findIdx?_none (p : α → Bool) (l : List α) (i : Nat)
    (h : ∀ x ∈ l, p x = false) : l.findIdx? p i = none := by
  induction l generalizing i with
  | nil => simp
  | cons a l ih =>
    rw [List.findIdx?_cons, if_neg (by simp [h a (by simp)])]
    exact ih (i + 1) (fun x hx => h x (by simp [hx]))

theorem tfm_findIdx_lt_length (p : α → Bool) (l : List α)
    (h : ∃ x ∈ l, p x = true) : l.findIdx p < l.length := by
  induction l with
  | nil => simp at h
  | cons a l ih =>
    rw [List.findIdx_cons]
    cases hpa : p a with
    | true => simp
    | false =>
      have h2 : ∃ x ∈ l, p x = true := by
        rcases h with ⟨x, hx, hpx⟩
        rcases List.mem_cons.mp hx with h3 | h3
        · rw [h3, hpa] at hpx; exact absurd hpx (by simp)
        · exact ⟨x, h3, hpx⟩
      simpa using ih h2

theorem tfm_findIdx_getD (p : α → Bool) (l : List α) (d : α)
    (h : ∃ x ∈ l, p x = true) : p (l.getD (l.findIdx p) d) = true := by
  induction l with
  | nil => simp at h
  | cons a l ih =>
    rw [List.findIdx_cons]
    cases hpa : p a with
    | true => simpa using hpa
    | false =>
      have h2 : ∃ x ∈ l, p x = true := by
        rcases h with ⟨x, hx, hpx⟩
        rcases List.mem_cons.mp hx with h3 | h3
        · rw [h3, hpa] at hpx; exact absurd hpx (by simp)
        · exact ⟨x, h3, hpx⟩
      simpa using ih h2

theorem tfm_findIdx_min (p : α → Bool) (l : List α) (d : α) (j : Nat)
    (hj : j < l.findIdx p) : p (l.getD j d) = false := by
  induction l generalizing j with
  | nil => simp at hj
  | cons a l ih =>
    rw [List.findIdx_cons] at hj
    cases hpa : p a with
    | true => rw [hpa] at hj; simp at hj
    | false =>
      rw [hpa] at hj
      simp only [Bool.cond_false] at hj
      cases j with
      | zero => simpa using hpa
      | succ k => simpa using ih k (by omega)

/-- For binary padding, `sum(1 - padding)` is the count of zeros. -/
theorem binary_pad_sum_count (pad : List ℚ) (hbin : IsBinary pad) :
    (pad.map (fun x => 1 - x)).sum
      = ((pad.countP (fun x => decide (x = 0)) : ℕ) : ℚ) := by
  induction pad with
  | nil => simp
  | cons p rest ih =>
    have hr : IsBinary rest := fun x hx => hbin x (by simp [hx])
    have ihr := ih hr
    rcases hbin p (by simp) with h | h <;> subst h <;>
      simp [List.countP_cons, ihr] <;> push_cast <;> ring

theorem maskedVals_length (arr pad : List ℚ) (hlen : arr.length = pad.length) :
    (maskedVals arr pad).length = pad.countP (fun x => decide (x = 0)) := by
  induction arr generalizing pad with
  | nil =>
    have : pad = [] := List.length_eq_zero.mp (by simpa using hlen.symm)
    subst this
    simp [maskedVals]
  | cons a as ih =>
    cases pad with
    | nil => simp at hlen
    | cons p ps =>
      have ihr := ih ps (by simpa using hlen)
      by_cases hp : p = 0
      · simp [maskedVals, List.countP_cons, hp, List.zip_cons_cons] at ihr ⊢
        simpa [maskedVals] using ihr
      · simp [maskedVals, List.countP_cons, hp, List.zip_cons_cons] at ihr ⊢
        simpa [maskedVals] using ihr

theorem masked_sum_vals (arr pad : List ℚ) (hlen : arr.length = pad.length)
    (hbin : IsBinary pad) :
    (List.zipWith (· * ·) arr (pad.map (fun x => 1 - x))).sum
      = (maskedVals arr pad).sum := by
  induction arr generalizing pad with
  | nil =>
    have : pad = [] := List.length_eq_zero.mp (by simpa using hlen.symm)
    subst this
    simp [maskedVals]
  | cons a as ih =>
    cases pad with
    | nil => simp at hlen
    | cons p ps =>
      have hr : IsBinary ps := fun x hx => hbin x (by simp [hx])
      have ihr := ih ps (by simpa using hlen) hr
      rcases hbin p (by simp) with h | h <;> subst h <;>
        simp [maskedVals, List.zip_cons_cons, ihr] <;>
        simpa [maskedVals] using ihr

theorem masked_sqsum_vals (arr pad : List ℚ) (hlen : arr.length = pad.length)
    (hbin : IsBinary pad) :
    ((List.zipWith (· * ·) arr (pad.map (fun x => 1 - x))).map
        (fun x => x ^ 2)).sum
      = ((maskedVals arr pad).map (fun x => x ^ 2)).sum := by
  induction arr generalizing pad with
  | nil =>
    have : pad = [] := List.length_eq_zero.mp (by simpa using hlen.symm)
    subst this
    simp [maskedVals]
  | cons a as ih =>
    cases pad with
    | nil => simp at hlen
    | cons p ps =>
      have hr : IsBinary ps := fun x hx => hbin x (by simp [hx])
      have ihr := ih ps (by simpa using hlen) hr
      rcases hbin p (by simp) with h | h <;> subst h <;>
        simp [maskedVals, List.zip_cons_cons, ihr] <;>
        simpa [maskedVals] using ihr

theorem numValidEff_vals (arr pad : List ℚ) (hlen : arr.length = pad.length)
    (hbin : IsBinary pad) :
    numValidEff pad = specDiv (maskedVals arr pad) := by
  have h1 : numValidEff pad
      = if (pad.map (fun x => 1 - x)).sum = 0 then 1
        else (pad.map (fun x => 1 - x)).sum := rfl
  rw [h1, binary_pad_sum_count pad hbin, ← maskedVals_length arr pad hlen]
  unfold specDiv
  by_cases h : (maskedVals arr pad).length = 0
  · simp [h]
  · rw [if_neg (by exact_mod_cast h), if_neg h]

theorem maskedMeanRow_eq_spec (arr pad : List ℚ)
    (hlen : arr.length = pad.length) (hbin : IsBinary pad) :
    maskedMeanRow arr pad = specMean (maskedVals arr pad) := by
  unfold maskedMeanRow specMean
  rw [masked_sum_vals arr pad hlen hbin, numValidEff_vals arr pad hlen hbin]

theorem maskedVarRow_eq_spec (arr pad : List ℚ)
    (hlen : arr.length = pad.length) (hbin : IsBinary pad) :
    maskedVarRow arr pad = specVar (maskedVals arr pad) := by
  have h1 : maskedVarRow arr pad
      = if ((List.zipWith (· * ·) arr (pad.map (fun x => 1 - x))).map
            (fun x => x ^ 2)).sum / numValidEff pad
            - maskedMeanRow arr pad ^ 2 < 0 then 0
        else ((List.zipWith (· * ·) arr (pad.map (fun x => 1 - x))).map
            (fun x => x ^ 2)).sum / numValidEff pad
            - maskedMeanRow arr pad ^ 2 := rfl
  rw [h1, masked_sqsum_vals arr pad hlen hbin,
    numValidEff_vals arr pad hlen hbin,
    maskedMeanRow_eq_spec arr pad hlen hbin]
  rfl

/-- The code's patch selection equals the spec-side patch selection
(first patch with at least three non-padded positions, else the last
patch). -/
theorem get_patch_index_eq_spec (padding : List (List ℚ))
    (hbin : ∀ pat ∈ padding, IsBinary pat) :
    _get_patch_index (padSumRow padding) = selectedPatchSpec padding := by
  set cs := padding.map (fun pat => pat.countP (fun x => decide (x = 0)))
    with hcs
  have hsum : padSumRow padding = cs.map (fun c => ((c : ℕ) : ℚ)) := by
    rw [hcs, List.map_map]
    exact List.map_congr_left
      (fun pat hpat => binary_pad_sum_count pat (hbin pat hpat))
  have hbools : (padSumRow padding).map (fun x => decide (3 ≤ x))
      = cs.map (fun c => decide (3 ≤ c)) := by
    rw [hsum, List.map_map]
    apply List.map_congr_left
    intro c _
    simp only [Function.comp_apply]
    exact decide_eq_decide.mpr (by exact_mod_cast Iff.rfl)
  have hgpi : _get_patch_index (padSumRow padding)
      = if ((padSumRow padding).map (fun x => decide (3 ≤ x))).count true = 0
        then (padSumRow padding).length - 1
        else jnpArgmaxBool ((padSumRow padding).map
          (fun x => decide (3 ≤ x))) := rfl
  by_cases hex : ∃ c ∈ cs, 3 ≤ c
  · have htrue : true ∈ cs.map (fun c => decide (3 ≤ c)) := by
      rcases hex with ⟨c, hc, h3⟩
      exact List.mem_map.mpr ⟨c, hc, by simpa using h3⟩
    have hcount : ((padSumRow padding).map
        (fun x => decide (3 ≤ x))).count true ≠ 0 := by
      rw [hbools]
      exact fun h => (List.count_eq_zero.mp h) htrue
    rw [hgpi, if_neg hcount]
    have hany : ((padSumRow padding).map
        (fun x => decide (3 ≤ x))).any id = true := by
      rw [hbools]
      exact List.any_eq_true.mpr ⟨true, htrue, rfl⟩
    unfold jnpArgmaxBool
    rw [if_pos hany, hbools, tfm_findIdx_map]
    have hspec : selectedPatchSpec padding
        = cs.findIdx (fun c => decide (3 ≤ c)) := by
      unfold selectedPatchSpec
      rw [← hcs, tfm_findIdx?_some _ _ 0
        (by
          rcases hex with ⟨c, hc, h3⟩
          exact ⟨c, hc, by simpa using h3⟩)]
      simp
    rw [hspec]
    rfl
  · have hall : ∀ c ∈ cs, (fun c => decide (3 ≤ c)) c = false := by
      intro c hc
      simp only [decide_eq_false_iff_not]
      exact fun h3 => hex ⟨c, hc, h3⟩
    have hcount0 : ((padSumRow padding).map
        (fun x => decide (3 ≤ x))).count true = 0 := by
      rw [hbools]
      apply List.count_eq_zero.mpr
      intro ht
      rcases List.mem_map.mp ht with ⟨c, hc, hceq⟩
      have h2 : decide (3 ≤ c) = false := hall c hc
      rw [hceq] at h2
      simp at h2
    rw [hgpi, if_pos hcount0]
    have hspec : selectedPatchSpec padding = padding.length - 1 := by
      unfold selectedPatchSpec
      rw [← hcs, tfm_findIdx?_none _ _ 0 hall]
    rw [hspec]
    have hlen2 : (padSumRow padding).length = padding.length := by
      unfold padSumRow
      simp
    rw [hlen2]

/-- Claim C3 (statistics patch selection): for every batch row of
patched inputs and binary patched padding, the (mean, std) statistics
are computed from exactly one patch - the first patch whose count of
non-padded positions is at least 3, or the last patch (index `N-1`)
when no patch qualifies - and the mean and std are computed over that
patch's non-padded positions only. -/
theorem C3_stats_patch_selection (sqrt : ℚ → ℚ)
    (inputs padding : List (List ℚ))
    (hbin : ∀ pat ∈ padding, IsBinary pat)
    (hrect : (inputs.getD (selectedPatchSpec padding) []).length
      = (padding.getD (selectedPatchSpec padding) []).length) :
    _masked_mean_std_row sqrt inputs padding
      = statsOfPatchSpec sqrt (inputs.getD (selectedPatchSpec padding) [])
          (padding.getD (selectedPatchSpec padding) []) ∧
    _get_patch_index (padSumRow padding) = selectedPatchSpec padding ∧
    ((∃ n < padding.length,
        3 ≤ (padding.getD n []).countP (fun x => decide (x = 0))) →
      3 ≤ (padding.getD (selectedPatchSpec padding) []).countP
          (fun x => decide (x = 0)) ∧
      ∀ j < selectedPatchSpec padding,
        (padding.getD j []).countP (fun x => decide (x = 0)) < 3) ∧
    ((∀ n < padding.length,
        (padding.getD n []).countP (fun x => decide (x = 0)) < 3) →
      selectedPatchSpec padding = padding.length - 1) := by
  have hidx := get_patch_index_eq_spec padding hbin
  have hpadbin : IsBinary (padding.getD (selectedPatchSpec padding) []) := by
    by_cases hin : selectedPatchSpec padding < padding.length
    · intro v hv
      have hmem : padding.getD (selectedPatchSpec padding) [] ∈ padding := by
        rw [List.getD_eq_getElem _ _ hin]
        exact List.getElem_mem hin
      exact hbin _ hmem v hv
    · rw [List.getD_eq_default _ _ (by omega)]
      intro v hv
      simp at hv
  refine ⟨?_, hidx, ?_, ?_⟩
  · have h1 : _masked_mean_std_row sqrt inputs padding
        = (maskedMeanRow
            (inputs.getD (_get_patch_index (padSumRow padding)) [])
            (padding.getD (_get_patch_index (padSumRow padding)) []),
           sqrt (maskedVarRow
            (inputs.getD (_get_patch_index (padSumRow padding)) [])
            (padding.getD (_get_patch_index (padSumRow padding)) []))) := rfl
    rw [h1, hidx, maskedMeanRow_eq_spec _ _ hrect hpadbin,
      maskedVarRow_eq_spec _ _ hrect hpadbin]
    rfl
  · intro hex
    set cs := padding.map (fun pat => pat.countP (fun x => decide (x = 0)))
      with hcs
    have hexcs : ∃ c ∈ cs, (fun c => decide (3 ≤ c)) c = true := by
      rcases hex with ⟨n, hn, h3⟩
      refine ⟨(padding.getD n []).countP (fun x => decide (x = 0)), ?_, by
        simpa using h3⟩
      rw [hcs]
      apply List.mem_map.mpr
      refine ⟨padding.getD n [], ?_, rfl⟩
      rw [List.getD_eq_getElem _ _ hn]
      exact List.getElem_mem hn
    have hsel : selectedPatchSpec padding
        = cs.findIdx (fun c => decide (3 ≤ c)) := by
      unfold selectedPatchSpec
      rw [← hcs, tfm_findIdx?_some _ _ 0 hexcs]
      simp
    have hlt : cs.findIdx (fun c => decide (3 ≤ c)) < cs.length :=
      tfm_findIdx_lt_length _ _ hexcs
    have hcslen : cs.length = padding.length := by rw [hcs]; simp
    constructor
    · have hget := tfm_findIdx_getD (fun c => decide (3 ≤ c)) cs 0 hexcs
      have hcsg : cs.getD (cs.findIdx (fun c => decide (3 ≤ c))) 0
          = (padding.getD (selectedPatchSpec padding) []).countP
            (fun x => decide (x = 0)) := by
        rw [hcs, ← hsel]
        exact tfm_getD_map _ padding (selectedPatchSpec padding)
          (by rw [hsel]; omega) [] 0
      rw [hcsg] at hget
      simpa using hget
    · intro j hj
      have hjlt : j < cs.length := by
        rw [hsel] at hj
        omega
      have hfalse := tfm_findIdx_min (fun c => decide (3 ≤ c)) cs 0 j
        (by rw [hsel] at hj; exact hj)
      have hcsg : cs.getD j 0
          = (padding.getD j []).countP (fun x => decide (x = 0)) := by
        rw [hcs]
        exact tfm_getD_map _ padding j (by omega) [] 0
      rw [hcsg] at hfalse
      simpa using hfalse
  · intro hall
    set cs := padding.map (fun pat => pat.countP (fun x => decide (x = 0)))
      with hcs
    have hallcs : ∀ c ∈ cs, (fun c => decide (3 ≤ c)) c = false := by
      intro c hc
      rcases List.mem_map.mp (by rw [hcs] at hc; exact hc) with ⟨pat, hpat, hceq⟩
      rcases List.mem_iff_getElem.mp hpat with ⟨n, hn, hpn⟩
      have h3 := hall n hn
      rw [List.getD_eq_getElem _ _ hn, hpn] at h3
      subst hceq
      simpa using by omega
    unfold selectedPatchSpec
    rw [← hcs, tfm_findIdx?_none _ _ 0 hallcs]

/-- Witness for C3: in a row whose first patch is fully padded, the
statistics come from the second patch (the first with at least three
non-padded positions). -/
theorem C3_stats_patch_selection_witness :
    _masked_mean_std_row sqrtId [[9, 9, 9], [1, 2, 3]] [[1, 1, 1], [0, 0, 0]]
      = statsOfPatchSpec sqrtId
          (([[9, 9, 9], [1, 2, 3]] : List (List ℚ)).getD
            (selectedPatchSpec [[1, 1, 1], [0, 0, 0]]) [])
          (([[1, 1, 1], [0, 0, 0]] : List (List ℚ)).getD
            (selectedPatchSpec [[1, 1, 1], [0, 0, 0]]) []) ∧
    _get_patch_index (padSumRow [[1, 1, 1], [0, 0, 0]])
      = selectedPatchSpec [[1, 1, 1], [0, 0, 0]] ∧
    ((∃ n < ([[1, 1, 1], [0, 0, 0]] : List (List ℚ)).length,
        3 ≤ (([[1, 1, 1], [0, 0, 0]] : List (List ℚ)).getD n []).countP
          (fun x => decide (x = 0))) →
      3 ≤ (([[1, 1, 1], [0, 0, 0]] : List (List ℚ)).getD
          (selectedPatchSpec [[1, 1, 1], [0, 0, 0]]) []).countP
          (fun x => decide (x = 0)) ∧
      ∀ j < selectedPatchSpec [[1, 1, 1], [0, 0, 0]],
        (([[1, 1, 1], [0, 0, 0]] : List (List ℚ)).getD j []).countP
          (fun x => decide (x = 0)) < 3) ∧
    ((∀ n < ([[1, 1, 1], [0, 0, 0]] : List (List ℚ)).length,
        (([[1, 1, 1], [0, 0, 0]] : List (List ℚ)).getD n []).countP
          (fun x => decide (x = 0)) < 3) →
      selectedPatchSpec [[1, 1, 1], [0, 0, 0]]
        = ([[1, 1, 1], [0, 0, 0]] : List (List ℚ)).length - 1) :=
  C3_stats_patch_selection sqrtId [[9, 9, 9], [1, 2, 3]]
    [[1, 1, 1], [0, 0, 0]] (by decide) (by decide)

/-! ### Claim C6 -/

theorem tfm_findIdx_congr (p q : α → Bool) (l : List α)
    (h : ∀ x ∈ l, p x = q x) : l.findIdx p = l.findIdx q := by
  induction l with
  | nil => simp
  | cons a as ih =>
    rw [List.findIdx_cons, List.findIdx_cons, h a (by simp),
      ih (fun x hx => h x (by simp [hx]))]

theorem tfm_ext_getD (as bs : List α) (d : α) (hlen : as.length = bs.length)
    (h : ∀ i < as.length, as.getD i d = bs.getD i d) : as = bs := by
  apply List.ext_getElem hlen
  intro i h1 h2
  have := h i h1
  rwa [List.getD_eq_getElem _ _ h1, List.getD_eq_getElem _ _ h2] at this

/-- Python's nonnegative `(i - k) % num` equals the natural-number
rotation index `(i + (num - k)) % num`. -/
theorem tfm_int_emod_shift (i k num : Nat) (hi : i < num) (hk : k < num) :
    (((i : ℤ) - (k : ℤ)) % (num : ℤ)).toNat = (i + (num - k)) % num := by
  by_cases h : k ≤ i
  · have h1 : ((i : ℤ) - k) % num = (i : ℤ) - k :=
      Int.emod_eq_of_lt (by omega) (by omega)
    rw [h1]
    have h2 : (i + (num - k)) = (i - k) + num := by omega
    rw [h2, Nat.add_mod_right, Nat.mod_eq_of_lt (by omega)]
    omega
  · have h0 : ((i : ℤ) - k + num) % num = ((i : ℤ) - k) % num := by
      have h3 := @Int.add_mul_emod_self_left ((i : ℤ) - (k : ℤ)) (num : ℤ) 1
      simpa using h3
    have h1 : ((i : ℤ) - k + num) % num = (i : ℤ) - k + num :=
      Int.emod_eq_of_lt (by omega) (by omega)
    rw [← h0, h1]
    have h2 : (i + (num - k)) % num = i + (num - k) :=
      Nat.mod_eq_of_lt (by omega)
    rw [h2]
    omega

theorem shiftRow_getD (num : Nat) (seqRow : List (List ℚ)) (k i : Nat)
    (hi : i < num) :
    (shiftRow num seqRow k).getD i []
      = seqRow.getD ((((i : ℤ) - (k : ℤ)) % (num : ℤ)).toNat) [] := by
  unfold shiftRow
  have hlen : i < ((List.range num).map
      (fun (j : Nat) =>
        seqRow.getD ((((j : ℕ) : ℤ) - (k : ℤ)) % (num : ℤ)).toNat [])).length := by
    simpa using hi
  rw [List.getD_eq_getElem _ _ hlen, List.getElem_map, List.getElem_range]

/-- For a binary mask row containing a zero, `jnp.argmin` returns the
index of the first zero. -/
theorem jnpArgmin_binary (row : List ℚ) (hbin : IsBinary row)
    (hzero : (0 : ℚ) ∈ row) :
    jnpArgmin row = row.findIdx (fun x => decide (x = 0)) := by
  unfold jnpArgmin
  apply tfm_findIdx_congr
  intro x hx
  rcases hbin x hx with h | h <;> subst h
  · have hle : ∀ y ∈ row, (0 : ℚ) ≤ y := by
      intro y hy
      rcases hbin y hy with h2 | h2 <;> rw [h2] <;> norm_num
    rw [decide_eq_true hle]
    simp
  · have hnle : ¬ ∀ y ∈ row, (1 : ℚ) ≤ y := by
      intro hall
      have := hall 0 hzero
      norm_num at this
    rw [decide_eq_false hnle]
    simp

/-- Claim C6, amended (positional alignment): in evaluation/inference
mode, for every batch row whose patch-level padding is binary and has
a first zero at index `k`, the positional embedding sequence added to
the model input is the base sequence circularly rotated RIGHT by `k`
(entry `i` is base entry `(i + N - k) % N`; equivalently, rotated left
by `N - k`), so the embedding at the first valid patch equals the
unshifted embedding at index 0, and a row with no leading padding gets
the unshifted embeddings exactly; in training mode no rotation is
applied.  (The claim's "rotated left by k" is refuted by the
counterexample; the code's `(i - shift) % num` gather is a right
rotation by `k`.) -/
theorem C6_positional_alignment_amended
    (mask : List (List ℚ)) (seq : List (List (List ℚ))) (num b : Nat)
    (hnum : num = (seq.headD []).length)
    (hb : b < seq.length) (hbm : b < mask.length)
    (hmbin : IsBinary (mask.getD b []))
    (hzero : (0 : ℚ) ∈ mask.getD b [])
    (hmlen : (mask.getD b []).length = num)
    (hrowlen : (seq.getD b []).length = num) :
    jnpArgmin (mask.getD b [])
      = (mask.getD b []).findIdx (fun x => decide (x = 0)) ∧
    (∀ i < num, ((_shift_padded_seq mask seq).getD b []).getD i []
      = (seq.getD b []).getD
          ((i + (num - (mask.getD b []).findIdx (fun x => decide (x = 0))))
            % num) []) ∧
    ((_shift_padded_seq mask seq).getD b []).getD
        ((mask.getD b []).findIdx (fun x => decide (x = 0))) []
      = (seq.getD b []).getD 0 [] ∧
    ((mask.getD b []).getD 0 0 = 0 →
      (_shift_padded_seq mask seq).getD b [] = seq.getD b []) ∧
    (∀ (B : Nat) (pp : List (List ℚ)) (pe : List (List (List ℚ))),
      posEmbUsed false B pp pe = pe) ∧
    (∀ (P : Nat) (ff : List ℚ → List ℚ) (pf : Nat → List (List (List ℚ)))
        (de : Bool) (sq : ℚ → ℚ) (ts pads : List (List ℚ)),
      (_preprocess_input P ff pf de sq ts pads none).1
        = addBC (preModelInput P ff sq ts pads)
            (posEmbUsed de (preModelInput P ff sq ts pads).length
              (prePatchedPadding P ts pads)
              (pf (shape1 (preModelInput P ff sq ts pads))))) := by
  have hargmin := jnpArgmin_binary (mask.getD b []) hmbin hzero
  have hkex : ∃ x ∈ mask.getD b [], (fun x => decide ((x : ℚ) = 0)) x = true :=
    ⟨0, hzero, by simp⟩
  have hkN : (mask.getD b []).findIdx (fun x => decide (x = 0)) < num := by
    have := tfm_findIdx_lt_length _ _ hkex
    omega
  have hshift_row : (_shift_padded_seq mask seq).getD b []
      = shiftRow num (seq.getD b [])
          ((mask.getD b []).findIdx (fun x => decide (x = 0))) := by
    unfold _shift_padded_seq
    rw [tfm_getD_zipWith _ seq mask b hb hbm [] [] [], ← hnum, hargmin]
  have hrot : ∀ i < num, ((_shift_padded_seq mask seq).getD b []).getD i []
      = (seq.getD b []).getD
          ((i + (num - (mask.getD b []).findIdx (fun x => decide (x = 0))))
            % num) [] := by
    intro i hi
    rw [hshift_row, shiftRow_getD num _ _ i hi,
      tfm_int_emod_shift i _ num hi hkN]
  refine ⟨hargmin, hrot, ?_, ?_, ?_, ?_⟩
  · have h3 := hrot _ hkN
    rw [h3]
    have : ((mask.getD b []).findIdx (fun x => decide (x = 0))
        + (num - (mask.getD b []).findIdx (fun x => decide (x = 0)))) = num := by
      omega
    rw [this, Nat.mod_self]
  · intro hhead
    have hk0 : (mask.getD b []).findIdx (fun x => decide (x = 0)) = 0 := by
      cases hmask : mask.getD b [] with
      | nil => rw [hmask] at hzero; simp at hzero
      | cons m ms =>
        rw [hmask] at hhead
        have hm : m = 0 := by simpa using hhead
        rw [List.findIdx_cons, hm]
        simp
    apply tfm_ext_getD _ _ []
    · rw [hshift_row]
      have hlen2 : (shiftRow num (seq.getD b [])
          ((mask.getD b []).findIdx (fun x => decide (x = 0)))).length
          = num := by
        unfold shiftRow
        simp
      rw [hlen2, hrowlen]
    · intro i hi
      have hilen : i < num := by
        rw [hshift_row] at hi
        unfold shiftRow at hi
        simpa using hi
      rw [hrot i hilen, hk0]
      have : (i + (num - 0)) % num = i := by
        rw [Nat.sub_zero, Nat.add_mod_right, Nat.mod_eq_of_lt hilen]
      rw [this]
  · intro B pp pe
    rfl
  · intro P ff pf de sq ts pads
    rfl

/-- Witness for the amended C6: two leading padded patches shift the
embedding so that base entry 0 lands at patch index 1 (mask
`[1, 0, 0]`, first zero at index 1). -/
theorem C6_positional_alignment_witness :
    jnpArgmin (([[1, 0, 0]] : List (List ℚ)).getD 0 [])
      = (([[1, 0, 0]] : List (List ℚ)).getD 0 []).findIdx
          (fun x => decide (x = 0)) ∧
    (∀ i < 3,
      ((_shift_padded_seq [[1, 0, 0]] [[[1], [2], [3]]]).getD 0 []).getD i []
        = (([[[1], [2], [3]]] : List (List (List ℚ))).getD 0 []).getD
            ((i + (3 - (([[1, 0, 0]] : List (List ℚ)).getD 0 []).findIdx
              (fun x => decide (x = 0)))) % 3) []) ∧
    ((_shift_padded_seq [[1, 0, 0]] [[[1], [2], [3]]]).getD 0 []).getD
        ((([[1, 0, 0]] : List (List ℚ)).getD 0 []).findIdx
          (fun x => decide (x = 0))) []
      = (([[[1], [2], [3]]] : List (List (List ℚ))).getD 0 []).getD 0 [] ∧
    ((([[1, 0, 0]] : List (List ℚ)).getD 0 []).getD 0 0 = 0 →
      (_shift_padded_seq [[1, 0, 0]] [[[1], [2], [3]]]).getD 0 []
        = ([[[1], [2], [3]]] : List (List (List ℚ))).getD 0 []) ∧
    (∀ (B : Nat) (pp : List (List ℚ)) (pe : List (List (List ℚ))),
      posEmbUsed false B pp pe = pe) ∧
    (∀ (P : Nat) (ff : List ℚ → List ℚ) (pf : Nat → List (List (List ℚ)))
        (de : Bool) (sq : ℚ → ℚ) (ts pads : List (List ℚ)),
      (_preprocess_input P ff pf de sq ts pads none).1
        = addBC (preModelInput P ff sq ts pads)
            (posEmbUsed de (preModelInput P ff sq ts pads).length
              (prePatchedPadding P ts pads)
              (pf (shape1 (preModelInput P ff sq ts pads))))) :=
  C6_positional_alignment_amended [[1, 0, 0]] [[[1], [2], [3]]] 3 0
    (by decide) (by decide) (by decide) (by decide) (by decide)
    (by decide) (by decide)

/-- Counterexample to C6 as stated: for the eval-mode row with
patch-level padding `[1, 0, 0]` (first zero at index `k = 1`), the
shifted embedding row is `[e2, e0, e1]` (a RIGHT rotation by 1), not
the LEFT rotation `[e1, e2, e0]` the claim describes. -/
theorem C6_positional_alignment_counterexample :
    _shift_padded_seq [[1, 0, 0]] [[[1], [2], [3]]]
      ≠ [([[1], [2], [3]] : List (List ℚ)).rotateLeft
          (([(1 : ℚ), 0, 0]).findIdx (fun x => decide (x = 0)))] := by
  decide

/-! ### Decode loop infrastructure (claims C7-C10) -/

theorem tfm_headD_getD (m : List (List α)) (d : List α) :
    m.headD d = m.getD 0 d := by
  cases m <;> rfl

theorem concat1_length (cs : List (List (List α))) (B : Nat) (hne : cs ≠ [])
    (h : ∀ c ∈ cs, c.length = B) : (concat1 cs).length = B := by
  induction cs with
  | nil => exact absurd rfl hne
  | cons c cs ih =>
    cases cs with
    | nil => simpa using h c (by simp)
    | cons c2 cs2 =>
      show (List.zipWith (· ++ ·) c (concat1 (c2 :: cs2))).length = B
      rw [List.length_zipWith, h c (by simp),
        ih (by simp) (fun x hx => h x (by simp [hx]))]
      simp

theorem concat1_row_length (cs : List (List (List α))) (B L : Nat)
    (h : ∀ c ∈ cs, c.length = B ∧ ∀ r ∈ c, r.length = L) :
    ∀ r ∈ concat1 cs, r.length = L * cs.length := by
  induction cs with
  | nil => simp [concat1]
  | cons c cs ih =>
    cases cs with
    | nil =>
      intro r hr
      have := (h c (by simp)).2 r hr
      simpa using this
    | cons c2 cs2 =>
      intro r hr
      obtain ⟨a, ha, b2, hb2, hr_eq⟩ := tfm_mem_zipWith hr
      subst hr_eq
      have h1 := (h c (by simp)).2 a ha
      have h2 := ih (fun x hx => h x (by simp [hx])) b2 hb2
      simp only [List.length_append, h1, h2, List.length_cons]
      ring

theorem concat1_getD (cs : List (List (List α))) (B b : Nat) (hb : b < B)
    (hne : cs ≠ []) (h : ∀ c ∈ cs, c.length = B) :
    (concat1 cs).getD b [] = (cs.map (fun c => c.getD b [])).flatten := by
  induction cs with
  | nil => exact absurd rfl hne
  | cons c cs ih =>
    cases cs with
    | nil => simp [concat1]
    | cons c2 cs2 =>
      show (List.zipWith (· ++ ·) c (concat1 (c2 :: cs2))).getD b [] = _
      rw [tfm_getD_zipWith _ c _ b (by rw [h c (by simp)]; omega)
        (by
          rw [concat1_length (c2 :: cs2) B (by simp)
            (fun x hx => h x (by simp [hx]))]
          omega) [] [] []]
      rw [ih (by simp) (fun x hx => h x (by simp [hx]))]
      simp

/-- `num_decode_patches = (H + L - 1) / L` is the ceiling of `H / L`. -/
theorem tfm_ceil_div (H L : Nat) (hH : 1 ≤ H) (hL : 1 ≤ L) :
    (H + L - 1) / L = Nat.ceil ((H : ℚ) / (L : ℚ)) := by
  set q := (H + L - 1) / L with hq
  have hdm : L * q + (H + L - 1) % L = H + L - 1 := Nat.div_add_mod _ _
  have hmlt : (H + L - 1) % L < L := Nat.mod_lt _ (by omega)
  set e := L * q with he
  have hub : H ≤ e := by omega
  have hlb : e < H + L := by omega
  have hn1 : 1 ≤ q := by
    rcases Nat.eq_zero_or_pos q with h0 | h0
    · rw [h0, Nat.mul_zero] at he
      omega
    · exact h0
  have hsub : (q - 1) * L = e - L := by
    rw [he, Nat.sub_mul, one_mul, Nat.mul_comm]
  have hqL : q * L = e := by rw [he, Nat.mul_comm]
  symm
  rw [Nat.ceil_eq_iff (by omega)]
  constructor
  · rw [lt_div_iff (by positivity)]
    exact_mod_cast (by omega : (q - 1) * L < H)
  · rw [div_le_iff (by positivity)]
    exact_mod_cast (by omega : H ≤ q * L)

/-- Shape and content invariants of the decode loop: starting from the
initial series `init` and an empty chunk list, after `n` iterations the
series still has `B` rows, every row has grown to
`shape1 init + L * n` entries, the loop has produced exactly `n`
chunks of `B` rows with `L` entries each, and every series row equals
its initial value followed by channel 0 of its concatenated chunks. -/
theorem decodeLoop_props
    (cm : List (List ℚ) → List (List ℚ) → List (List ℚ) →
      List (List (List (List ℚ))))
    (freq : List (List ℚ)) (max_len L : Nat) (paddings : List (List ℚ))
    (B : Nat) (init : List (List ℚ)) (hB : 1 ≤ B)
    (hcmlen : ∀ ts pads, (cm ts pads freq).length = B)
    (hcmrows : ∀ ts pads, ∀ row ∈ cm ts pads freq,
      row ≠ [] ∧ L ≤ (row.getLastD []).length) :
    ∀ (n : Nat) (st : List (List ℚ) × List (List (List (List ℚ)))),
      st.1.length = B →
      (∀ row ∈ st.1, row.length = shape1 st.1) →
      (∀ c ∈ st.2, c.length = B ∧ ∀ r ∈ c, r.length = L) →
      (∀ b < B, st.1.getD b [] = init.getD b []
        ++ ((st.2.map (fun c => c.getD b [])).flatten).map
            (fun chan => chan.getD 0 0)) →
      (decodeLoop cm freq max_len L paddings n st).1.length = B ∧
      (∀ row ∈ (decodeLoop cm freq max_len L paddings n st).1,
        row.length = shape1 (decodeLoop cm freq max_len L paddings n st).1) ∧
      (∀ c ∈ (decodeLoop cm freq max_len L paddings n st).2,
        c.length = B ∧ ∀ r ∈ c, r.length = L) ∧
      (decodeLoop cm freq max_len L paddings n st).2.length
        = st.2.length + n ∧
      shape1 (decodeLoop cm freq max_len L paddings n st).1
        = shape1 st.1 + L * n ∧
      (∀ b < B, (decodeLoop cm freq max_len L paddings n st).1.getD b []
        = init.getD b []
          ++ (((decodeLoop cm freq max_len L paddings n st).2.map
              (fun c => c.getD b [])).flatten).map
            (fun chan => chan.getD 0 0)) := by
  intro n
  induction n with
  | zero =>
    intro st h1 h2 h3 h5
    exact ⟨h1, h2, h3, by simp [decodeLoop], by simp [decodeLoop], h5⟩
  | succ m ih =>
    intro st h1 h2 h3 h5
    have hstep : decodeLoop cm freq max_len L paddings (m + 1) st
        = decodeLoop cm freq max_len L paddings m
          (decodeStep cm freq max_len L paddings st) := rfl
    set G := cm (st.1.map (takeLast max_len))
      ((paddings.map (fun row => row.take (shape1 st.1))).map
        (takeLast max_len)) freq with hG
    have hGlen : G.length = B := hcmlen _ _
    have hGrows := hcmrows (st.1.map (takeLast max_len))
      ((paddings.map (fun row => row.take (shape1 st.1))).map
        (takeLast max_len))
    have hsd : decodeStep cm freq max_len L paddings st
        = (List.zipWith (fun row nt => row ++ nt) st.1
            (G.map (fun grid => ((grid.getLastD []).take L).map
              (fun chan => chan.getD 0 0))),
           st.2 ++ [G.map (fun grid => (grid.getLastD []).take L)]) := rfl
    have hnew_rows : ∀ r ∈ G.map (fun grid => ((grid.getLastD []).take L).map
        (fun chan => chan.getD 0 0)), r.length = L := by
      intro r hr
      obtain ⟨g, hg, hr_eq⟩ := List.mem_map.mp hr
      subst hr_eq
      have := (hGrows g hg).2
      simp only [List.length_map, List.length_take]
      omega
    have hchunk_rows : ∀ r ∈ G.map (fun grid => (grid.getLastD []).take L),
        r.length = L := by
      intro r hr
      obtain ⟨g, hg, hr_eq⟩ := List.mem_map.mp hr
      subst hr_eq
      have := (hGrows g hg).2
      simp only [List.length_take]
      omega
    have hs1len : (decodeStep cm freq max_len L paddings st).1.length = B := by
      rw [hsd]
      simp only [List.length_zipWith, List.length_map, h1, hGlen]
      omega
    have hs1getD : ∀ b < B,
        (decodeStep cm freq max_len L paddings st).1.getD b []
          = st.1.getD b []
            ++ ((G.map (fun grid => (grid.getLastD []).take L)).getD b []).map
              (fun chan => chan.getD 0 0) := by
      intro b hb
      rw [hsd]
      simp only []
      rw [tfm_getD_zipWith _ st.1 _ b (by omega)
        (by simp only [List.length_map]; omega) [] [] []]
      rw [tfm_getD_map _ G b (by omega) [] []]
      rw [tfm_getD_map _ G b (by omega) [] []]
    have hshape : shape1 (decodeStep cm freq max_len L paddings st).1
        = shape1 st.1 + L := by
      have h0 := hs1getD 0 hB
      have hrow0 : st.1.getD 0 [] ∈ st.1 := by
        rw [List.getD_eq_getElem _ _ (by omega)]
        exact List.getElem_mem (by omega)
      have hchunkmem : (G.map (fun grid => (grid.getLastD []).take L)).getD
          0 [] ∈ G.map (fun grid => (grid.getLastD []).take L) := by
        rw [List.getD_eq_getElem _ _ (by simp only [List.length_map]; omega)]
        exact List.getElem_mem (by simp only [List.length_map]; omega)
      rw [shape1, tfm_headD_getD, h0]
      simp only [List.length_append, List.length_map]
      rw [h2 _ hrow0, hchunk_rows _ hchunkmem, shape1, tfm_headD_getD]
    have hs1rect : ∀ row ∈ (decodeStep cm freq max_len L paddings st).1,
        row.length = shape1 (decodeStep cm freq max_len L paddings st).1 := by
      intro row hrow
      rw [hshape]
      rw [hsd] at hrow
      obtain ⟨a, ha, nt, hnt, hrow_eq⟩ := tfm_mem_zipWith hrow
      subst hrow_eq
      rw [List.length_append, h2 a ha, hnew_rows nt hnt]
    have hs2 : ∀ c ∈ (decodeStep cm freq max_len L paddings st).2,
        c.length = B ∧ ∀ r ∈ c, r.length = L := by
      rw [hsd]
      intro c hc
      rcases List.mem_append.mp hc with h | h
      · exact h3 c h
      · rw [List.mem_singleton.mp h]
        exact ⟨by simp [hGlen], hchunk_rows⟩
    have hs5 : ∀ b < B,
        (decodeStep cm freq max_len L paddings st).1.getD b []
          = init.getD b []
            ++ (((decodeStep cm freq max_len L paddings st).2.map
                (fun c => c.getD b [])).flatten).map
              (fun chan => chan.getD 0 0) := by
      intro b hb
      rw [hs1getD b hb, h5 b hb, hsd]
      simp only [List.map_append, List.map_cons, List.map_nil,
        List.flatten_append, List.map_append, List.append_assoc]
      simp
    obtain ⟨g1, g2, g3, g4, g5, g6⟩ := ih
      (decodeStep cm freq max_len L paddings st) hs1len hs1rect hs2 hs5
    rw [hstep]
    refine ⟨g1, g2, g3, ?_, ?_, g6⟩
    · rw [g4, hsd]
      simp only [List.length_append, List.length_cons, List.length_nil]
      omega
    · rw [g5, hshape]
      ring

/-! ### Claim C7 -/

/-- Claim C7 (decode length invariants): for every decode call with
requested horizon `H ≥ 1` and output chunk length
`L = output_patch_len.getD native_horizon ≥ 1` (defaulting to the
model's native horizon when not supplied), the loop performs exactly
`(H + L - 1) / L = ⌈H / L⌉` forward passes (one chunk per pass), the
returned point forecast has exactly `H` columns per batch row, and the
returned full forecast has exactly `H` rows per batch row, even when
`⌈H / L⌉ * L` exceeds `H`. -/
theorem C7_decode_length_invariants
    (cm : List (List ℚ) → List (List ℚ) → List (List ℚ) →
      List (List (List (List ℚ))))
    (freq : List (List ℚ)) (H : Nat) (opl : Option Nat)
    (native max_len : Nat) (input_ts paddings : List (List ℚ))
    (hH : 1 ≤ H) (hL : 1 ≤ opl.getD native) (hB : 1 ≤ input_ts.length)
    (hrect : ∀ row ∈ input_ts, row.length = shape1 input_ts)
    (hpad : shape1 paddings = shape1 input_ts + H)
    (hcmlen : ∀ ts pads, (cm ts pads freq).length = input_ts.length)
    (hcmrows : ∀ ts pads, ∀ row ∈ cm ts pads freq,
      row ≠ [] ∧ opl.getD native ≤ (row.getLastD []).length) :
    (decodeLoop cm freq max_len (opl.getD native) paddings
        ((H + opl.getD native - 1) / opl.getD native)
        (input_ts, [])).2.length
      = (H + opl.getD native - 1) / opl.getD native ∧
    (H + opl.getD native - 1) / opl.getD native
      = Nat.ceil ((H : ℚ) / (opl.getD native : ℚ)) ∧
    ∃ point full,
      decode cm freq H opl native max_len input_ts paddings
        = .ok (point, full) ∧
      point.length = input_ts.length ∧
      (∀ row ∈ point, row.length = H) ∧
      full.length = input_ts.length ∧
      (∀ row ∈ full, row.length = H) := by
  set L := opl.getD native with hLdef
  set num := (H + L - 1) / L with hnum
  set B := input_ts.length with hBdef
  have hdm : L * num + (H + L - 1) % L = H + L - 1 := Nat.div_add_mod _ _
  have hmlt : (H + L - 1) % L < L := Nat.mod_lt _ (by omega)
  have hub : H ≤ L * num := by omega
  have hnum1 : 1 ≤ num := by
    rcases Nat.eq_zero_or_pos num with h0 | h0
    · rw [h0, Nat.mul_zero] at hdm
      omega
    · exact h0
  obtain ⟨g1, g2, g3, g4, g5, g6⟩ := decodeLoop_props cm freq max_len L
    paddings B input_ts hB hcmlen hcmrows num (input_ts, []) rfl hrect
    (by simp) (by simp)
  have hdec_eq : decode cm freq H opl native max_len input_ts paddings
      = .ok ((decodeLoop cm freq max_len L paddings num
            (input_ts, [])).1.map
          (fun row => (row.drop (shape1 input_ts)).take H),
        (concat1 (decodeLoop cm freq max_len L paddings num
            (input_ts, [])).2).map (fun row => row.take H)) := by
    have h0 : decode cm freq H opl native max_len input_ts paddings
        = if shape1 paddings ≠ shape1 input_ts + H
          then .error
            "Length of paddings must match length of input + horizon_len"
          else .ok ((decodeLoop cm freq max_len L paddings num
                (input_ts, [])).1.map
              (fun row => (row.drop (shape1 input_ts)).take H),
            (concat1 (decodeLoop cm freq max_len L paddings num
                (input_ts, [])).2).map (fun row => row.take H)) := rfl
    rw [h0, if_neg (fun hcon => hcon hpad)]
  have hs2len : (decodeLoop cm freq max_len L paddings num
      (input_ts, [])).2.length = num := by
    rw [g4]
    simp
  have hs2ne : (decodeLoop cm freq max_len L paddings num
      (input_ts, [])).2 ≠ [] := by
    apply List.length_pos.mp
    omega
  refine ⟨hs2len, tfm_ceil_div H L hH hL, _, _, hdec_eq, ?_, ?_, ?_, ?_⟩
  · simp [g1]
  · intro row hrow
    obtain ⟨r, hr, hrow_eq⟩ := List.mem_map.mp hrow
    subst hrow_eq
    have hrlen := g2 r hr
    rw [g5] at hrlen
    simp only [List.length_take, List.length_drop]
    rw [hrlen]
    simp only [shape1]
    omega
  · rw [List.length_map, concat1_length _ B hs2ne (fun c hc => (g3 c hc).1)]
  · intro row hrow
    obtain ⟨r, hr, hrow_eq⟩ := List.mem_map.mp hrow
    subst hrow_eq
    have hrlen := concat1_row_length _ B L g3 r hr
    rw [hs2len] at hrlen
    simp only [List.length_take, hrlen]
    omega

/-- Witness for C7 at `H = 5`, `L = 2`: three iterations, point
forecast `5` columns, full forecast `5` rows. -/
theorem C7_decode_length_invariants_witness :
    (decodeLoop cmToy [[0]] 4 ((some 2).getD 7) [[0, 0, 0, 0, 0, 0, 0]]
        ((5 + (some 2).getD 7 - 1) / (some 2).getD 7)
        ([[1, 2]], [])).2.length
      = (5 + (some 2).getD 7 - 1) / (some 2).getD 7 ∧
    (5 + (some 2).getD 7 - 1) / (some 2).getD 7
      = Nat.ceil ((5 : ℚ) / ((some 2).getD 7 : ℚ)) ∧
    ∃ point full,
      decode cmToy [[0]] 5 (some 2) 7 4 [[1, 2]] [[0, 0, 0, 0, 0, 0, 0]]
        = .ok (point, full) ∧
      point.length = ([[(1 : ℚ), 2]] : List (List ℚ)).length ∧
      (∀ row ∈ point, row.length = 5) ∧
      full.length = ([[(1 : ℚ), 2]] : List (List ℚ)).length ∧
      (∀ row ∈ full, row.length = 5) :=
  C7_decode_length_invariants cmToy [[0]] 5 (some 2) 7 4 [[1, 2]]
    [[0, 0, 0, 0, 0, 0, 0]] (by decide) (by decide) (by decide) (by decide)
    (by decide) (fun _ _ => rfl)
    (fun _ _ =>
      (by decide :
        ∀ row ∈ ([[[[(10 : ℚ), 11], [12, 13]]]] :
            List (List (List (List ℚ)))),
          row ≠ [] ∧ (some 2).getD 7 ≤ (row.getLastD []).length))

/-! ### Claim C8 -/

/-- Claim C8 (decode shape-mismatch failure): a decode call returns an
error if and only if the supplied padding length differs from the
input series length plus `horizon_len`; and when it errors, the result
is identical for every forward-pass function `cm`, so no model
computation influences (or is needed for) the outcome - the check
happens before any forward pass. -/
theorem C8_decode_shape_mismatch
    (freq : List (List ℚ)) (H : Nat) (opl : Option Nat)
    (native max_len : Nat) (input_ts paddings : List (List ℚ)) :
    (∀ cm, (∃ e, decode cm freq H opl native max_len input_ts paddings
        = .error e)
      ↔ shape1 paddings ≠ shape1 input_ts + H) ∧
    (shape1 paddings ≠ shape1 input_ts + H →
      ∀ cm cm', decode cm freq H opl native max_len input_ts paddings
        = decode cm' freq H opl native max_len input_ts paddings) := by
  have h0 : ∀ cm, decode cm freq H opl native max_len input_ts paddings
      = if shape1 paddings ≠ shape1 input_ts + H
        then .error
          "Length of paddings must match length of input + horizon_len"
        else .ok ((decodeLoop cm freq max_len (opl.getD native) paddings
              ((H + opl.getD native - 1) / opl.getD native)
              (input_ts, [])).1.map
            (fun row => (row.drop (shape1 input_ts)).take H),
          (concat1 (decodeLoop cm freq max_len (opl.getD native) paddings
              ((H + opl.getD native - 1) / opl.getD native)
              (input_ts, [])).2).map (fun row => row.take H)) :=
    fun cm => rfl
  constructor
  · intro cm
    constructor
    · rintro ⟨e, he⟩
      by_cases hcond : shape1 paddings ≠ shape1 input_ts + H
      · exact hcond
      · rw [h0 cm, if_neg hcond] at he
        simp at he
    · intro hne
      refine ⟨"Length of paddings must match length of input + horizon_len",
        ?_⟩
      rw [h0 cm, if_pos hne]
  · intro hne cm cm'
    rw [h0 cm, h0 cm', if_pos hne, if_pos hne]

/-! ### Claim C9 -/

/-- Claim C9 (monotonic context growth): after each iteration of the
autoregressive decode loop, every row of the growing output series is
exactly `output_patch_len` positions longer than before the iteration,
and the appended values are the channel-0 (mean) forecasts of the last
patch's first `output_patch_len` horizon offsets from that iteration's
forward pass. -/
theorem C9_monotonic_context_growth
    (cm : List (List ℚ) → List (List ℚ) → List (List ℚ) →
      List (List (List (List ℚ))))
    (freq : List (List ℚ)) (max_len L : Nat) (paddings : List (List ℚ))
    (B : Nat) (st : List (List ℚ) × List (List (List (List ℚ))))
    (hB : 1 ≤ B) (h1 : st.1.length = B)
    (hGlen : (cm (st.1.map (takeLast max_len))
        ((paddings.map (fun row => row.take (shape1 st.1))).map
          (takeLast max_len)) freq).length = B)
    (hGrows : ∀ row ∈ cm (st.1.map (takeLast max_len))
        ((paddings.map (fun row => row.take (shape1 st.1))).map
          (takeLast max_len)) freq,
      row ≠ [] ∧ L ≤ (row.getLastD []).length) :
    (decodeStep cm freq max_len L paddings st).1.length = B ∧
    ∀ b < B,
      (decodeStep cm freq max_len L paddings st).1.getD b []
        = st.1.getD b []
          ++ ((((cm (st.1.map (takeLast max_len))
              ((paddings.map (fun row => row.take (shape1 st.1))).map
                (takeLast max_len)) freq).getD b []).getLastD []).take
              L).map (fun chan => chan.getD 0 0) ∧
      ((decodeStep cm freq max_len L paddings st).1.getD b []).length
        = (st.1.getD b []).length + L := by
  set G := cm (st.1.map (takeLast max_len))
    ((paddings.map (fun row => row.take (shape1 st.1))).map
      (takeLast max_len)) freq with hG
  have hsd : decodeStep cm freq max_len L paddings st
      = (List.zipWith (fun row nt => row ++ nt) st.1
          (G.map (fun grid => ((grid.getLastD []).take L).map
            (fun chan => chan.getD 0 0))),
         st.2 ++ [G.map (fun grid => (grid.getLastD []).take L)]) := rfl
  have hlen : (decodeStep cm freq max_len L paddings st).1.length = B := by
    rw [hsd]
    simp only [List.length_zipWith, List.length_map, h1, hGlen]
    omega
  refine ⟨hlen, ?_⟩
  intro b hb
  have hgetD : (decodeStep cm freq max_len L paddings st).1.getD b []
      = st.1.getD b []
        ++ (((G.getD b []).getLastD []).take L).map
          (fun chan => chan.getD 0 0) := by
    rw [hsd]
    simp only []
    rw [tfm_getD_zipWith _ st.1 _ b (by omega)
      (by simp only [List.length_map]; omega) [] [] []]
    rw [tfm_getD_map _ G b (by omega) [] []]
  refine ⟨hgetD, ?_⟩
  rw [hgetD]
  have hGmem : G.getD b [] ∈ G := by
    rw [List.getD_eq_getElem _ _ (by omega)]
    exact List.getElem_mem (by omega)
  have := (hGrows _ hGmem).2
  simp only [List.length_append, List.length_map, List.length_take]
  omega

/-- Witness for C9: one step of the toy decode appends exactly the two
channel-0 values of the toy forecast. -/
theorem C9_monotonic_context_growth_witness :
    (decodeStep cmToy [[0]] 4 2 [[0, 0, 0, 0]] ([[1, 2]], [])).1.length
      = 1 ∧
    ∀ b < 1,
      (decodeStep cmToy [[0]] 4 2 [[0, 0, 0, 0]] ([[1, 2]], [])).1.getD b []
        = (([[1, 2]], []) : List (List ℚ) ×
            List (List (List (List ℚ)))).1.getD b []
          ++ ((((cmToy ((([[1, 2]], []) : List (List ℚ) ×
                List (List (List (List ℚ)))).1.map (takeLast 4))
              ((([[0, 0, 0, 0]] : List (List ℚ)).map
                (fun row => row.take (shape1 (([[1, 2]], []) :
                  List (List ℚ) ×
                    List (List (List (List ℚ)))).1))).map
                (takeLast 4)) [[0]]).getD b []).getLastD []).take 2).map
            (fun chan => chan.getD 0 0) ∧
      ((decodeStep cmToy [[0]] 4 2 [[0, 0, 0, 0]]
          ([[1, 2]], [])).1.getD b []).length
        = ((([[1, 2]], []) : List (List ℚ) ×
            List (List (List (List ℚ)))).1.getD b []).length + 2 :=
  C9_monotonic_context_growth cmToy [[0]] 4 2 [[0, 0, 0, 0]] 1
    ([[1, 2]], []) (by decide) (by decide) (by decide)
    (by decide)

/-! ### Claim C10 -/

/-- Claim C10 (implicit consistency of decode outputs): for every
decode call that returns, the returned point forecast equals channel 0
of the returned full forecast, row by row: both are built from the
same last-patch chunk slices in the same order and trimmed identically
to the horizon. -/
theorem C10_point_eq_channel0
    (cm : List (List ℚ) → List (List ℚ) → List (List ℚ) →
      List (List (List (List ℚ))))
    (freq : List (List ℚ)) (H : Nat) (opl : Option Nat)
    (native max_len : Nat) (input_ts paddings : List (List ℚ))
    (point : List (List ℚ)) (full : List (List (List ℚ)))
    (hH : 1 ≤ H) (hL : 1 ≤ opl.getD native) (hB : 1 ≤ input_ts.length)
    (hrect : ∀ row ∈ input_ts, row.length = shape1 input_ts)
    (hpad : shape1 paddings = shape1 input_ts + H)
    (hcmlen : ∀ ts pads, (cm ts pads freq).length = input_ts.length)
    (hcmrows : ∀ ts pads, ∀ row ∈ cm ts pads freq,
      row ≠ [] ∧ opl.getD native ≤ (row.getLastD []).length)
    (hdec : decode cm freq H opl native max_len input_ts paddings
      = .ok (point, full)) :
    ∀ b < input_ts.length,
      point.getD b [] = (full.getD b []).map (fun chan => chan.getD 0 0) := by
  set L := opl.getD native with hLdef
  set num := (H + L - 1) / L with hnum
  set B := input_ts.length with hBdef
  have hdm : L * num + (H + L - 1) % L = H + L - 1 := Nat.div_add_mod _ _
  have hmlt : (H + L - 1) % L < L := Nat.mod_lt _ (by omega)
  have hnum1 : 1 ≤ num := by
    rcases Nat.eq_zero_or_pos num with h0 | h0
    · rw [h0, Nat.mul_zero] at hdm
      omega
    · exact h0
  obtain ⟨g1, g2, g3, g4, g5, g6⟩ := decodeLoop_props cm freq max_len L
    paddings B input_ts hB hcmlen hcmrows num (input_ts, []) rfl hrect
    (by simp) (by simp)
  have hdec_eq : decode cm freq H opl native max_len input_ts paddings
      = .ok ((decodeLoop cm freq max_len L paddings num
            (input_ts, [])).1.map
          (fun row => (row.drop (shape1 input_ts)).take H),
        (concat1 (decodeLoop cm freq max_len L paddings num
            (input_ts, [])).2).map (fun row => row.take H)) := by
    have h0 : decode cm freq H opl native max_len input_ts paddings
        = if shape1 paddings ≠ shape1 input_ts + H
          then .error
            "Length of paddings must match length of input + horizon_len"
          else .ok ((decodeLoop cm freq max_len L paddings num
                (input_ts, [])).1.map
              (fun row => (row.drop (shape1 input_ts)).take H),
            (concat1 (decodeLoop cm freq max_len L paddings num
                (input_ts, [])).2).map (fun row => row.take H)) := rfl
    rw [h0, if_neg (fun hcon => hcon hpad)]
  rw [hdec_eq] at hdec
  have hpair := Except.ok.inj hdec
  have hpoint : point = (decodeLoop cm freq max_len L paddings num
      (input_ts, [])).1.map
        (fun row => (row.drop (shape1 input_ts)).take H) :=
    (Prod.mk.injEq _ _ _ _ ▸ hpair).1.symm
  have hfull : full = (concat1 (decodeLoop cm freq max_len L paddings num
      (input_ts, [])).2).map (fun row => row.take H) :=
    (Prod.mk.injEq _ _ _ _ ▸ hpair).2.symm
  intro b hb
  have hs2len : (decodeLoop cm freq max_len L paddings num
      (input_ts, [])).2.length = num := by
    rw [g4]
    simp
  have hs2ne : (decodeLoop cm freq max_len L paddings num
      (input_ts, [])).2 ≠ [] := by
    apply List.length_pos.mp
    omega
  have hinitlen : (input_ts.getD b []).length = shape1 input_ts := by
    apply hrect
    rw [List.getD_eq_getElem _ _ (by omega)]
    exact List.getElem_mem (by omega)
  have hpb : point.getD b []
      = ((((decodeLoop cm freq max_len L paddings num
          (input_ts, [])).2.map (fun c => c.getD b [])).flatten).take H).map
        (fun chan => chan.getD 0 0) := by
    rw [hpoint]
    rw [tfm_getD_map _ _ b (by omega) [] []]
    rw [g6 b hb]
    rw [← hinitlen, List.drop_left]
    rw [List.map_take]
  have hfb : full.getD b []
      = (((decodeLoop cm freq max_len L paddings num
          (input_ts, [])).2.map (fun c => c.getD b [])).flatten).take H := by
    rw [hfull]
    have hclen : (concat1 (decodeLoop cm freq max_len L paddings num
        (input_ts, [])).2).length = B :=
      concat1_length _ B hs2ne (fun c hc => (g3 c hc).1)
    rw [tfm_getD_map _ _ b (by omega) [] []]
    rw [concat1_getD _ B b hb hs2ne (fun c hc => (g3 c hc).1)]
  rw [hpb, hfb]

/-- Witness for C10 at a concrete toy decode (`H = 3`, `L = 2`): point
forecast `[10, 12, 10]` is channel 0 of the full forecast rows. -/
theorem C10_point_eq_channel0_witness :
    ([[10, 12, 10]] : List (List ℚ)).getD 0 []
      = (([[[10, 11], [12, 13], [10, 11]]] :
          List (List (List ℚ))).getD 0 []).map
        (fun chan => chan.getD 0 0) :=
  C10_point_eq_channel0 cmToy [[0]] 3 (some 2) 7 4 [[1, 2]]
    [[0, 0, 0, 0, 0]] [[10, 12, 10]] [[[10, 11], [12, 13], [10, 11]]]
    (by decide) (by decide) (by decide) (by decide) (by decide)
    (fun _ _ => rfl)
    (fun _ _ =>
      (by decide :
        ∀ row ∈ ([[[[(10 : ℚ), 11], [12, 13]]]] :
            List (List (List (List ℚ)))),
          row ≠ [] ∧ (some 2).getD 7 ≤ (row.getLastD []).length))
    rfl 0 (by decide)
